import Mathlib

/-!
Verification of the marinade-finance/ledger-utils repository.

The TypeScript sources are shallowly embedded: strings are modelled as
`List Char`, byte buffers as `List Nat` (each element < 256), JavaScript
`undefined` as `Option.none`, and thrown exceptions as `Except.error`.
External collaborators (the Solana `PublicKey` base58 parser, the Ed25519
primitive, hardware devices) are abstracted as parameters.
-/

namespace LedgerUtils

/-! ## PathMath: `generateAllCombinations` (src/unnamed/part_004 lines 28-50,
    src/unnamed/part_006 lines 6-28; both copies are identical). -/

/-- Embedding of the inner recursive `generate(prefix, remainingLength)`:
the JS function pushes, in depth-first order, every extension of `pre` by
`remainingLength` further values drawn from `0..maxDepth`.  The list returned
here is exactly the sequence of pushes, in push order. -/
def genCombs (maxDepth : Nat) (pre : List Nat) : Nat → List (List Nat)
  | 0 => [pre]
  | n + 1 => (List.range (maxDepth + 1)).flatMap fun i => genCombs maxDepth (pre ++ [i]) n

/-- Embedding of `generateAllCombinations(maxDepth, maxLength)`.  When either
argument is `undefined` the JS function returns `[]`; otherwise it starts from
`[[]]` and, for each `length` from 1 to `maxLength`, pushes all combinations of
that length. -/
def generateAllCombinations : Option Nat → Option Nat → List (List Nat)
  | some maxDepth, some maxLength =>
      [[]] ++ (List.range maxLength).flatMap fun l => genCombs maxDepth [] (l + 1)
  | _, _ => []

/-- Order in which `generateAllCombinations` emits sequences: strictly
increasing length, and lexicographically increasing within one length. -/
def combLt (s t : List Nat) : Prop :=
  s.length < t.length ∨ (s.length = t.length ∧ List.Lex (· < ·) s t)

theorem genCombs_eq_map (d : Nat) :
    ∀ (n : Nat) (pre : List Nat), genCombs d pre n = (genCombs d [] n).map (pre ++ ·) := by
  intro n
  induction n with
  | zero => intro pre; simp [genCombs]
  | succ n ih =>
    intro pre
    simp only [genCombs, List.map_flatMap, List.nil_append]
    congr 1
    funext i
    rw [ih (pre ++ [i]), ih [i], List.map_map]
    congr 1
    funext s
    simp [List.append_assoc]

theorem genCombs_nil_succ (d n : Nat) :
    genCombs d [] (n + 1)
      = (List.range (d + 1)).flatMap fun i => (genCombs d [] n).map (i :: ·) := by
  simp only [genCombs, List.nil_append]
  congr 1
  funext i
  rw [genCombs_eq_map]
  congr 1

theorem length_genCombs (d : Nat) : ∀ n, (genCombs d [] n).length = (d + 1) ^ n := by
  intro n
  induction n with
  | zero => simp [genCombs]
  | succ n ih =>
    rw [genCombs_nil_succ, List.length_flatMap]
    have h : List.map (List.length ∘ fun i => (genCombs d [] n).map (i :: ·))
        (List.range (d + 1)) = List.map (fun _ => (d + 1) ^ n) (List.range (d + 1)) := by
      apply List.map_congr_left
      intro i _
      simp [ih]
    rw [h]
    simp [List.map_const', List.sum_replicate, pow_succ, Nat.mul_comm]

theorem mem_genCombs (d : Nat) :
    ∀ n s, s ∈ genCombs d [] n ↔ (s.length = n ∧ ∀ x ∈ s, x ≤ d) := by
  intro n
  induction n with
  | zero =>
    intro s
    simp only [genCombs, List.mem_singleton]
    constructor
    · rintro rfl; simp
    · rintro ⟨h, _⟩; exact List.length_eq_zero.mp h
  | succ n ih =>
    intro s
    rw [genCombs_nil_succ]
    simp only [List.mem_flatMap, List.mem_map, List.mem_range]
    constructor
    · rintro ⟨i, hi, t, ht, rfl⟩
      obtain ⟨hlen, hall⟩ := (ih t).mp ht
      refine ⟨by simp [hlen], ?_⟩
      intro x hx
      rcases List.mem_cons.mp hx with rfl | hx
      · omega
      · exact hall x hx
    · rintro ⟨hlen, hall⟩
      cases s with
      | nil => simp at hlen
      | cons a t =>
        have ha : a ≤ d := hall a (by simp)
        refine ⟨a, by omega, t, (ih t).mpr ⟨by simpa using hlen,
          fun x hx => hall x (by simp [hx])⟩, rfl⟩

theorem pairwise_flatMap {α β : Type} {R : β → β → Prop} {f : α → List β} :
    ∀ {l : List α}, (∀ a ∈ l, (f a).Pairwise R) →
      l.Pairwise (fun a b => ∀ x ∈ f a, ∀ y ∈ f b, R x y) →
      (l.flatMap f).Pairwise R := by
  intro l
  induction l with
  | nil => simp
  | cons a l ih =>
    intro h1 h2
    rw [List.flatMap_cons, List.pairwise_append]
    rcases List.pairwise_cons.mp h2 with ⟨ha, h2t⟩
    refine ⟨h1 a (by simp), ih (fun b hb => h1 b (by simp [hb])) h2t, ?_⟩
    intro x hx y hy
    rcases List.mem_flatMap.mp hy with ⟨b, hb, hyb⟩
    exact ha b hb x hx y hyb

theorem pairwise_lex_genCombs (d : Nat) :
    ∀ n, (genCombs d [] n).Pairwise (List.Lex (· < ·)) := by
  intro n
  induction n with
  | zero => simp [genCombs]
  | succ n ih =>
    rw [genCombs_nil_succ]
    apply pairwise_flatMap
    · intro i _
      exact ih.map _ (fun _ _ h => List.Lex.cons h)
    · refine (List.pairwise_lt_range (d + 1)).imp ?_
      intro i j hij x hx y hy
      rcases List.mem_map.mp hx with ⟨s, _, rfl⟩
      rcases List.mem_map.mp hy with ⟨t, _, rfl⟩
      exact List.Lex.rel hij

theorem length_generateAllCombinations (d : Nat) :
    ∀ w, (generateAllCombinations (some d) (some w)).length
      = 1 + ∑ l ∈ Finset.Icc 1 w, (d + 1) ^ l := by
  intro w
  induction w with
  | zero => simp [generateAllCombinations]
  | succ w ih =>
    simp only [generateAllCombinations] at ih ⊢
    rw [List.range_succ, List.flatMap_append, Finset.sum_Icc_succ_top (by omega)]
    simp only [List.length_append] at ih ⊢
    simp only [List.flatMap_cons, List.flatMap_nil, List.append_nil, List.length_append]
    rw [length_genCombs]
    omega

/-- Claim C1: for defined bounds, `generateAllCombinations(maxDepth, maxLength)`
returns exactly `1 + Σ_{l=1}^{maxLength} (maxDepth+1)^l` sequences, the first
being `[]`, containing every sequence of at most `maxLength` integers drawn
from `0..maxDepth`, ordered by increasing length and lexicographically within a
fixed length; if either argument is `undefined`, the result is empty. -/
theorem generateAllCombinations_correct (d w : Nat) :
    (generateAllCombinations (some d) (some w)).length
        = 1 + ∑ l ∈ Finset.Icc 1 w, (d + 1) ^ l
    ∧ (generateAllCombinations (some d) (some w)).head? = some []
    ∧ (∀ s : List Nat,
        s ∈ generateAllCombinations (some d) (some w)
          ↔ (s.length ≤ w ∧ ∀ x ∈ s, x ≤ d))
    ∧ (generateAllCombinations (some d) (some w)).Pairwise combLt
    ∧ generateAllCombinations none (some w) = []
    ∧ generateAllCombinations (some d) none = []
    ∧ generateAllCombinations none none = [] := by
  refine ⟨length_generateAllCombinations d w, rfl, ?_, ?_, rfl, rfl, rfl⟩
  · intro s
    simp only [generateAllCombinations, List.cons_append, List.nil_append,
      List.mem_cons, List.mem_flatMap, List.mem_range]
    constructor
    · rintro (rfl | ⟨l, hl, hs⟩)
      · simp
      · obtain ⟨hlen, hall⟩ := (mem_genCombs d (l + 1) s).mp hs
        exact ⟨by omega, hall⟩
    · rintro ⟨hlen, hall⟩
      cases s with
      | nil => exact Or.inl rfl
      | cons a t =>
        refine Or.inr ⟨(a :: t).length - 1, by simp at hlen ⊢; omega, ?_⟩
        refine (mem_genCombs d _ _).mpr ⟨by simp, hall⟩
  · simp only [generateAllCombinations, List.cons_append, List.nil_append]
    rw [List.pairwise_cons]
    constructor
    · intro t ht
      rcases List.mem_flatMap.mp ht with ⟨l, _, htl⟩
      have := ((mem_genCombs d (l + 1) t).mp htl).1
      exact Or.inl (by simp [this])
    · apply pairwise_flatMap
      · intro l _
        refine (pairwise_lex_genCombs d (l + 1)).imp_of_mem ?_
        intro a b ha hb hlex
        have h1 := ((mem_genCombs d (l + 1) a).mp ha).1
        have h2 := ((mem_genCombs d (l + 1) b).mp hb).1
        exact Or.inr ⟨by omega, hlex⟩
      · refine (List.pairwise_lt_range w).imp ?_
        intro l l' hll x hx y hy
        have h1 := ((mem_genCombs d (l + 1) x).mp hx).1
        have h2 := ((mem_genCombs d (l' + 1) y).mp hy).1
        exact Or.inl (by omega)

/-! ## JavaScript string primitives, modelled on `List Char` -/

/-- JS whitespace test, restricted to the ASCII whitespace characters that can
occur in this code base (`String.prototype.trim` additionally strips rarer
Unicode spaces, which no caller produces). -/
def isWs (u : Char) : Bool :=
  (u == '\t') || (u == '\n') || (u == '\r') || (u == ' ')

/-- JS `String.prototype.trim`: strip leading and trailing whitespace. -/
def trimWS (l : List Char) : List Char :=
  ((l.dropWhile isWs).reverse.dropWhile isWs).reverse

/-- JS `String.prototype.split` with a one-character separator: split at every
occurrence, keeping empty parts (`''.split('/') = ['']`). -/
def splitOnChar (sep : Char) : List Char → List (List Char)
  | [] => [[]]
  | c :: rest =>
    let r := splitOnChar sep rest
    if c = sep then [] :: r
    else
      match r with
      | [] => [[c]]
      | s :: ss => (c :: s) :: ss

/-- Decimal digit test (`[0-9]`). -/
def isDigitC (c : Char) : Bool :=
  48 ≤ c.toNat && c.toNat ≤ 57

/-- Numeric value of a string of decimal digits. -/
def digitsToNat (l : List Char) : Nat :=
  l.foldl (fun a c => a * 10 + (c.toNat - 48)) 0

/-- Modelled from the spec: the JS builtin `parseFloat` (external to the
repository), restricted to the inputs the claims quantify over — strings that
are a decimal-integer token surrounded by optional whitespace.  On any other
input (where real `parseFloat` may return `NaN` or a fractional/partial value)
the model returns `none`, and theorems carry the numeric-segment hypothesis. -/
def jsParseFloat (s : List Char) : Option Nat :=
  let t := trimWS s
  if t ≠ [] ∧ t.all isDigitC then some (digitsToNat t) else none

/-! ## `obtainAccountDiscoveryDepthAndWide` (src/unnamed/part_004 lines 72-92) -/

/-- The suffix the function evaluates: split the path on `/`, drop a leading
segment whose trim equals `m` (only when more than one segment exists, as in
the source), then drop the fixed 2-segment BIP44 prefix.  `List.drop 2`
returns `[]` exactly when the source's `length > 2` guard fails, so the guard
and the slice are expressed together. -/
def pathSuffixSegments (derivedPath : List Char) : List (List Char) :=
  let split0 := splitOnChar '/' derivedPath
  let split1 :=
    if split0.length > 1 ∧ trimWS (split0.headD []) = ['m'] then split0.tail else split0
  split1.drop 2

/-- Embedding of `obtainAccountDiscoveryDepthAndWide(derivedPath, defaultDepth,
defaultWide)`.  The returned depth is an `Option Nat`: `none` models the `NaN`
that `Math.max(defaultDepth, ...suffix.map(parseFloat))` produces when some
suffix segment is not numeric. -/
def obtainAccountDiscoveryDepthAndWide (derivedPath : List Char)
    (defaultDepth defaultWide : Nat) : Option Nat × Nat :=
  let suffix := pathSuffixSegments derivedPath
  if suffix = [] then (some defaultDepth, defaultWide)
  else
    (if suffix.all (fun s => (jsParseFloat s).isSome) then
        some ((suffix.filterMap jsParseFloat).foldl max defaultDepth)
      else none,
      max defaultWide suffix.length)

theorem foldl_max_max (l : List Nat) : ∀ a b, l.foldl max (max a b) = max a (l.foldl max b) := by
  induction l with
  | nil => intro a b; rfl
  | cons c l ih =>
    intro a b
    simp only [List.foldl_cons, Nat.max_assoc]
    exact ih a (max b c)

theorem foldl_max_eq (l : List Nat) (a : Nat) : l.foldl max a = max a (l.foldl max 0) := by
  have h := foldl_max_max l a 0
  rwa [Nat.max_zero] at h

/-- Claim C2: on a path whose suffix segments are all numeric,
`obtainAccountDiscoveryDepthAndWide` returns
`wide = max(defaultWide, number of suffix segments)` and
`depth = max(defaultDepth, maximum numeric value among the suffix segments)`;
depth and wide never fall below the given defaults, and a path with no suffix
returns the defaults unchanged. -/
theorem obtainAccountDiscoveryDepthAndWide_correct (path : List Char) (dd dw : Nat)
    (h : ∀ s ∈ pathSuffixSegments path, (jsParseFloat s).isSome = true) :
    obtainAccountDiscoveryDepthAndWide path dd dw
      = (some (max dd (((pathSuffixSegments path).filterMap jsParseFloat).foldl max 0)),
         max dw (pathSuffixSegments path).length)
    ∧ dd ≤ max dd (((pathSuffixSegments path).filterMap jsParseFloat).foldl max 0)
    ∧ dw ≤ max dw (pathSuffixSegments path).length
    ∧ (pathSuffixSegments path = [] →
        obtainAccountDiscoveryDepthAndWide path dd dw = (some dd, dw)) := by
  refine ⟨?_, Nat.le_max_left _ _, Nat.le_max_left _ _, ?_⟩
  · unfold obtainAccountDiscoveryDepthAndWide
    by_cases hs : pathSuffixSegments path = []
    · simp [hs]
    · have hall : (pathSuffixSegments path).all (fun s => (jsParseFloat s).isSome) = true :=
        List.all_eq_true.mpr h
      simp only [hs, if_false, hall, if_true]
      rw [foldl_max_eq]
  · intro hs
    unfold obtainAccountDiscoveryDepthAndWide
    simp [hs]

/-- Concrete instance of claim C2, from the repository's own test:
`obtainAccountDiscoveryDepthAndWide('44/501/0/15', 1, 2)` is
`{depth: 15, wide: 2}`. -/
theorem obtainAccountDiscoveryDepthAndWide_witness :
    obtainAccountDiscoveryDepthAndWide ("44/501/0/15".data) 1 2 = (some 15, 2) := by
  have h := obtainAccountDiscoveryDepthAndWide_correct ("44/501/0/15".data) 1 2 (by decide)
  rw [h.1]
  decide

/-! ## `LedgerWallet.signAllTransactions`
    (src/packages/ledger-utils/src/ledger.ts lines 91-99) -/

/-- Loop of `signAllTransactions`: `signedTxs` starts empty and each
transaction is signed and pushed in order. -/
def signAllTransactionsGo {σ Tx : Type} (signTransaction : σ → Tx → σ × Tx) :
    σ → List Tx → List Tx → σ × List Tx
  | s, acc, [] => (s, acc)
  | s, acc, tx :: rest =>
    let r := signTransaction s tx
    signAllTransactionsGo signTransaction r.1 (acc ++ [r.2]) rest

/-- Embedding of `LedgerWallet.signAllTransactions`.  The awaited
`this.signTransaction(tx)` (a device round-trip followed by
`tx.addSignature`) is abstracted as a state-passing function
`signTransaction : σ → Tx → σ × Tx`; threading `σ` captures that each
round-trip completes before the next transaction is signed. -/
def signAllTransactions {σ Tx : Type} (signTransaction : σ → Tx → σ × Tx)
    (s : σ) (txs : List Tx) : σ × List Tx :=
  signAllTransactionsGo signTransaction s [] txs

/-- Device state after sequentially signing `txs` starting from `s`. -/
def seqSignState {σ Tx : Type} (f : σ → Tx → σ × Tx) (s : σ) (txs : List Tx) : σ :=
  txs.foldl (fun st tx => (f st tx).1) s

/-- The sequential specification: sign each transaction in input order,
threading the state. -/
def seqSignOuts {σ Tx : Type} (f : σ → Tx → σ × Tx) : σ → List Tx → List Tx
  | _, [] => []
  | s, tx :: rest => (f s tx).2 :: seqSignOuts f (f s tx).1 rest

theorem signAllTransactionsGo_eq {σ Tx : Type} (f : σ → Tx → σ × Tx) :
    ∀ (txs : List Tx) (s : σ) (acc : List Tx),
      signAllTransactionsGo f s acc txs = (seqSignState f s txs, acc ++ seqSignOuts f s txs) := by
  intro txs
  induction txs with
  | nil => intro s acc; simp [signAllTransactionsGo, seqSignState, seqSignOuts]
  | cons tx rest ih =>
    intro s acc
    simp [signAllTransactionsGo, seqSignState, seqSignOuts, ih]

theorem length_seqSignOuts {σ Tx : Type} (f : σ → Tx → σ × Tx) :
    ∀ (txs : List Tx) (s : σ), (seqSignOuts f s txs).length = txs.length := by
  intro txs
  induction txs with
  | nil => intro s; rfl
  | cons tx rest ih => intro s; simp [seqSignOuts, ih]

theorem get_seqSignOuts {σ Tx : Type} (f : σ → Tx → σ × Tx) :
    ∀ (txs : List Tx) (s : σ) (i : Nat) (h : i < txs.length)
      (h2 : i < (seqSignOuts f s txs).length),
      (seqSignOuts f s txs).get ⟨i, h2⟩
        = (f (seqSignState f s (txs.take i)) (txs.get ⟨i, h⟩)).2 := by
  intro txs
  induction txs with
  | nil => intro s i h; exact absurd h (by simp)
  | cons tx rest ih =>
    intro s i h h2
    cases i with
    | zero => rfl
    | succ i =>
      simp only [seqSignOuts, List.get_cons_succ, List.take_succ_cons]
      rw [ih ((f s tx).1) i (by simpa using h) (by simpa [length_seqSignOuts] using h)]
      rfl

/-- Claim C10: `signAllTransactions` signs strictly sequentially in input
order (state threaded through each signature before the next), and returns a
list of the same length whose `i`-th element is the signing of the `i`-th
input transaction — nothing dropped, duplicated or reordered. -/
theorem signAllTransactions_correct {σ Tx : Type} (f : σ → Tx → σ × Tx)
    (s : σ) (txs : List Tx) :
    (signAllTransactions f s txs).2 = seqSignOuts f s txs
    ∧ (signAllTransactions f s txs).2.length = txs.length
    ∧ (signAllTransactions f s txs).1 = seqSignState f s txs
    ∧ ∀ (i : Nat) (h : i < txs.length) (h2 : i < (signAllTransactions f s txs).2.length),
        (signAllTransactions f s txs).2.get ⟨i, h2⟩
          = (f (seqSignState f s (txs.take i)) (txs.get ⟨i, h⟩)).2 := by
  have hgo := signAllTransactionsGo_eq f txs s []
  refine ⟨by simp [signAllTransactions, hgo], ?_, by simp [signAllTransactions, hgo], ?_⟩
  · simp [signAllTransactions, hgo, length_seqSignOuts]
  · intro i h h2
    have he : (signAllTransactions f s txs).2 = seqSignOuts f s txs := by
      simp [signAllTransactions, hgo]
    have h2s : i < (seqSignOuts f s txs).length := by rw [← he]; exact h2
    rw [List.get_of_eq he ⟨i, h2⟩]
    exact get_seqSignOuts f txs s i h h2s

/-- Concrete instance of claim C10: signing the two-transaction batch `[5, 7]`
with a logging signer, the second output is the second input signed in the
state left behind by the first. -/
theorem signAllTransactions_witness :
    (signAllTransactions (fun (log : List Nat) (tx : Nat) => (log ++ [tx], tx + 100))
        [] [5, 7]).2.get ⟨1, by decide⟩
      = ((fun (log : List Nat) (tx : Nat) => (log ++ [tx], tx + 100))
          (seqSignState (fun (log : List Nat) (tx : Nat) => (log ++ [tx], tx + 100))
            [] ([5, 7].take 1))
          ([5, 7].get ⟨1, by decide⟩)).2 :=
  (signAllTransactions_correct _ _ _).2.2.2 1 (by decide) (by decide)

/-! ## `LedgerWallet.getSolanaApi` path resolution
    (src/packages/ledger-utils/src/ledger.ts lines 111-178 and 217-257) -/

/-- The apostrophe character, used in the hardened BIP44 path segments. -/
def apos : Char := Char.ofNat 39

/-- The constant `SOLANA_LEDGER_BIP44_BASE_PATH`, the string `44'/501'`. -/
def SOLANA_LEDGER_BIP44_BASE_PATH : List Char :=
  ['4', '4', apos, '/', '5', '0', '1', apos]

/-- Decimal rendering of a path segment value (`v.toString()` in JS). -/
def natToChars (n : Nat) : List Char := Nat.toDigits 10 n

/-- Embedding of `getHeuristicDepthAndWide` from src/unnamed/part_006 lines 42-59: like
`obtainAccountDiscoveryDepthAndWide` but without the leading-`m` strip.
Depth `none` again models `NaN`. -/
def getHeuristicDepthAndWide (derivedPath : List Char)
    (defaultDepth defaultWide : Nat) : Option Nat × Nat :=
  let suffix := (splitOnChar '/' derivedPath).drop 2
  if suffix = [] then (some defaultDepth, defaultWide)
  else
    (if suffix.all (fun s => (jsParseFloat s).isSome) then
        some ((suffix.filterMap jsParseFloat).foldl max defaultDepth)
      else none,
      max defaultWide suffix.length)

/-- Path built in `searchDerivedPathFromPubkey` from one candidate suffix:
`[base, ...combination.map(toString)].join('/')`. -/
def derivedPathOfCombination (combination : List Nat) : List Char :=
  SOLANA_LEDGER_BIP44_BASE_PATH ++ combination.flatMap (fun v => '/' :: natToChars v)

/-- Combinations tried by `searchDerivedPathFromPubkey`.  A `NaN` depth
(modelled `none`) leaves the JS generator's inner `i <= maxDepth` loop with no
iterations, so only the initial `[[]]` survives. -/
def combosOfHeuristic (depthOpt : Option Nat) (wide : Nat) : List (List Nat) :=
  match depthOpt with
  | some dep => generateAllCombinations (some dep) (some wide)
  | none => [[]]

/-- Result of resolving a device session, together with instrumentation of the
effects the resolver performed: which devices were opened (or fetched from the
transport cache) and which `getAddress` probes were issued while matching or
searching.  The final `getPublicKey` that binds the session (ledger.ts line
176) is reflected in the `pubkey` field, not in `matchQueries`. -/
structure ResolveOutcome (D PK : Type) where
  device : D
  derivedPath : List Char
  pubkey : PK
  openedDevices : List D
  matchQueries : List (D × List Char)
  deriving Repr

/-- Inner loop of `searchDerivedPathFromPubkey`: probe one device at every
candidate path, in generator order, stopping at the first match. -/
def searchCombos {D PK : Type} [DecidableEq PK] (addr : D → List Char → PK)
    (pk : PK) (d : D) : List (List Nat) → Option (List Char) × List (D × List Char)
  | [] => (none, [])
  | combo :: rest =>
    let p := derivedPathOfCombination combo
    if addr d p = pk then (some p, [(d, p)])
    else
      let r := searchCombos addr pk d rest
      (r.1, (d, p) :: r.2)

/-- Outer loop of `searchDerivedPathFromPubkey`: devices outer, candidate
suffixes inner. -/
def searchDevices {D PK : Type} [DecidableEq PK] (addr : D → List Char → PK)
    (pk : PK) (combos : List (List Nat)) :
    List D → Option (D × List Char) × List (D × List Char)
  | [] => (none, [])
  | d :: rest =>
    let r := searchCombos addr pk d combos
    match r.1 with
    | some p => (some (d, p), r.2)
    | none =>
      let r2 := searchDevices addr pk combos rest
      (r2.1, r.2 ++ r2.2)

/-- First matching loop of `getSolanaApi` (ledger.ts lines 132-139): query
every opened device at the locator's path until one reports the target key. -/
def matchAtPath {D PK : Type} [DecidableEq PK] (addr : D → List Char → PK)
    (pk : PK) (path : List Char) : List D → Option D × List (D × List Char)
  | [] => (none, [])
  | d :: rest =>
    if addr d path = pk then (some d, [(d, path)])
    else
      let r := matchAtPath addr pk path rest
      (r.1, (d, path) :: r.2)

/-- Embedding of `LedgerWallet.getSolanaApi`.  Device I/O is abstracted: the
enumeration is the list `devices`, opening a transport for a device yields the
device itself (the process-wide transport cache makes open idempotent), and
`getAddress` is the pure oracle `addr`. -/
def getSolanaApi {D PK : Type} [DecidableEq PK] (addr : D → List Char → PK)
    (devices : List D) (pubkey : Option PK) (derivedPath : List Char)
    (heuristicDepth heuristicWide : Nat) : Except (List Char) (ResolveOutcome D PK) :=
  match devices, pubkey with
  | [], _ => .error ("No ledger device found".data)
  | d :: _, none =>
    -- we don't know where to search for the derived path, thus take the first
    -- device; only it is opened and no matching probe is made
    .ok ⟨d, derivedPath, addr d derivedPath, [d], []⟩
  | d :: ds, some pk =>
    let devs := d :: ds
    let m := matchAtPath addr pk derivedPath devs
    match m.1 with
    | some dm => .ok ⟨dm, derivedPath, addr dm derivedPath, devs, m.2⟩
    | none =>
      let hw := getHeuristicDepthAndWide derivedPath heuristicDepth heuristicWide
      let combos := combosOfHeuristic hw.1 hw.2
      let sr := searchDevices addr pk combos devs
      match sr.1 with
      | some dp => .ok ⟨dp.1, dp.2, addr dp.1 dp.2, devs, m.2 ++ sr.2⟩
      | none => .error ("pubkey not found for derivation path".data)

/-- Claim C9: with no target public key and a non-empty device enumeration,
`getSolanaApi` opens only the first enumerated device, issues no matching or
searching address probes, and binds the session to the locator's derivation
path exactly as given. -/
theorem getSolanaApi_no_pubkey {D PK : Type} [DecidableEq PK]
    (addr : D → List Char → PK) (d : D) (ds : List D) (path : List Char)
    (heuristicDepth heuristicWide : Nat) :
    getSolanaApi addr (d :: ds) none path heuristicDepth heuristicWide
      = .ok ⟨d, path, addr d path, [d], []⟩ := rfl

/-! ## `parseWalletUrl` (src/unnamed/part_004 lines 104-231) -/

/-- The `WalletType` enum, values `trezor` and `ledger`. -/
inductive WalletType where
  | trezor
  | ledger
  deriving DecidableEq, Repr

/-- The enum value strings, used both in the URL grammar and in messages. -/
def kindToken : WalletType → List Char
  | .trezor => "trezor".data
  | .ledger => "ledger".data

/-- The distinct `throw` sites of `parseWalletUrl`, one constructor per error
message. -/
inductive WalletUrlError where
  | invalidPrefixUrl
  | invalidWalletType
  | invalidUrl
  | invalidPubkey (token : List Char)
  | emptyDerivedPath
  | notNumbers (derivedPath : List Char)
  deriving DecidableEq, Repr

/-- The spec's error taxonomy (spec section 7). -/
inductive ErrKind where
  | invalidWalletUrl
  | invalidPubkeyKind
  | invalidDerivationSegment
  deriving DecidableEq, Repr

/-- Mapping each throw site onto the spec's taxonomy: the malformed
prefix/type/query messages are the `InvalidWalletUrl` kind. -/
def WalletUrlError.kind : WalletUrlError → ErrKind
  | .invalidPrefixUrl => .invalidWalletUrl
  | .invalidWalletType => .invalidWalletUrl
  | .invalidUrl => .invalidWalletUrl
  | .invalidPubkey _ => .invalidPubkeyKind
  | .emptyDerivedPath => .invalidDerivationSegment
  | .notNumbers _ => .invalidDerivationSegment

/-- Consume the optional `/` of `WALLET_URL_PREFIX_REGEXP = ^usb://(trezor|ledger)/?`. -/
def dropOptionalSlash (l : List Char) : List Char :=
  match l with
  | c :: rest => if c = '/' then rest else c :: rest
  | [] => []

/-- Match `WALLET_URL_PREFIX_REGEXP` against the (trimmed) url and remove the
matched part, returning the captured wallet type and the remaining
`walletPath`.  Both alternation tokens have length 6, so the matched prefix is
always 12 characters plus the optional slash. -/
def stripWalletUrlStart (u : List Char) : Option (WalletType × List Char) :=
  if "usb://trezor".data.isPrefixOf u then some (.trezor, dropOptionalSlash (u.drop 12))
  else if "usb://ledger".data.isPrefixOf u then some (.ledger, dropOptionalSlash (u.drop 12))
  else none

/-- Tail of the identifier/key regex after group 1 and `\??` are fixed: the
alternation `(?:key=([^]*)|)` is tried against `r`, the `key=` branch first,
then the empty branch; anything else fails. -/
def tryTailCore (r : List Char) : Option (Option (List Char)) :=
  if r.take 4 = "key=".data then some (some (r.drop 4))
  else if r = [] then some none
  else none

/-- Tail of the identifier/key regex `^([^?]*)\??(?:key=([^]*)|)$` after the
group-1 candidate has been fixed: `\??` greedily consumes a leading `?` when
present (backtracking to not consuming it can never help, because a tail that
starts with `?` matches neither `key=` nor the empty branch), then the
alternation runs.  Returns `some kq` when the tail matches, where `kq` is the
contents of group 2 (`none` when the empty branch matched). -/
def tryTailAt (rest : List Char) : Option (Option (List Char)) :=
  match rest with
  | c :: r => if c = '?' then tryTailCore r else tryTailCore (c :: r)
  | [] => tryTailCore []

/-- Backtracking over the greedy group-1 candidate `maxP.take k`, longest
first, exactly as the regex engine shortens `[^?]*`. -/
def searchK (maxP rest0 : List Char) : Nat → Option (List Char × Option (List Char))
  | 0 =>
    match tryTailAt (maxP.drop 0 ++ rest0) with
    | some kq => some (maxP.take 0, kq)
    | none => none
  | k + 1 =>
    match tryTailAt (maxP.drop (k + 1) ++ rest0) with
    | some kq => some (maxP.take (k + 1), kq)
    | none => searchK maxP rest0 k

/-- Full match of `^([^?]*)\??(?:key=([^]*)|)$` with JS leftmost-greedy
semantics: group 1 starts from the longest `?`-free prefix and backtracks. -/
def matchQS (qs : List Char) : Option (List Char × Option (List Char)) :=
  let maxP := qs.takeWhile (fun c => c != '?')
  searchK maxP (qs.dropWhile (fun c => c != '?')) maxP.length

/-- Embedding of the inner `extractIdentifierAndKey`.  When the regex matches,
group 1 is always a (possibly empty) string, so the source's additional
`key === undefined && identifier === undefined` throw condition is
unreachable; only a failed match throws. -/
def extractIdentifierAndKey (queryString : List Char) :
    Except WalletUrlError (List Char × Option (List Char)) :=
  match matchQS (trimWS queryString) with
  | some r => .ok r
  | none => .error .invalidUrl

/-- Character class of `END_SLASH_REGEXP` and `START_SLASH_REGEXP`: `[/ ]`. -/
def isSlashSpace (c : Char) : Bool :=
  c == '/' || c == ' '

/-- Embedding of the inner `evaluateWalletIdentifier`: strip trailing `[/ ]`,
treat an empty result as no identifier, otherwise require a parsable public
key.  The base58 `PublicKey` parser of `@solana/web3.js` is external to the
repository and abstracted as the predicate `isPk`; on success the model keeps
the adjusted identifier string. -/
def evaluateWalletIdentifier (isPk : List Char → Bool) (pubkey : List Char) :
    Except WalletUrlError (Option (List Char)) :=
  let pubkeyAdjusted := (pubkey.reverse.dropWhile isSlashSpace).reverse
  if pubkeyAdjusted = [] then .ok none
  else if isPk pubkeyAdjusted then .ok (some pubkeyAdjusted)
  else .error (.invalidPubkey pubkey)

/-- The regex `IS_NUMERIC_REGEXP = new RegExp('[0-9]+')` is unanchored, so `test`
succeeds exactly when the string contains at least one decimal digit. -/
def containsDigit (l : List Char) : Bool :=
  l.any isDigitC

/-- Loop of `testDerivedKeyNumbers` over the split path items: trim each item,
append `/item` to the accumulated final path, and fail on an item that does
not pass `IS_NUMERIC_REGEXP.test`. -/
def checkPathItems (derivedPath : List Char) :
    List (List Char) → List Char → Except WalletUrlError (List Char)
  | [], acc => .ok acc
  | item :: rest, acc =>
    let pathItem := trimWS item
    if containsDigit pathItem then checkPathItems derivedPath rest (acc ++ '/' :: pathItem)
    else .error (.notNumbers derivedPath)

/-- Embedding of the inner `testDerivedKeyNumbers`.  A JS `split` never
returns an empty array, so the `length === 0` throw is unreachable. -/
def testDerivedKeyNumbers (derivedPath : List Char) : Except WalletUrlError (List Char) :=
  let splittedPath := splitOnChar '/' (trimWS derivedPath)
  if splittedPath = [] then .error .emptyDerivedPath
  else checkPathItems derivedPath splittedPath []

/-- The constant `SOLANA_BIP44_BASE_PATH`, the string `44'/501'` (src/unnamed/part_004
line 16; same value as the ledger package's constant). -/
def SOLANA_BIP44_BASE_PATH : List Char :=
  ['4', '4', apos, '/', '5', '0', '1', apos]

/-- Strip an optional apostrophe, for `[']{0,1}` in the base-path regex. -/
def dropApos : List Char → List Char
  | [] => []
  | c :: rest => if c = apos then rest else c :: rest

/-- Match of `SOLANA_BIP44_BASE_REGEXP = ^44[']{0,1}\/501[']{0,1}\/` returning
the string with the matched prefix removed (the regex is anchored and each
optional apostrophe can be committed greedily because a `/` must follow). -/
def stripBip44 (l : List Char) : Option (List Char) :=
  match l with
  | '4' :: '4' :: r1 =>
    (match dropApos r1 with
     | '/' :: '5' :: '0' :: '1' :: r2 =>
       (match dropApos r2 with
        | '/' :: r3 => some r3
        | _ => none)
     | _ => none)
  | _ => none

/-- Result record of `parseWalletUrl`. -/
structure ParsedWalletUrl where
  walletType : WalletType
  walletIdentifier : Option (List Char)
  parsedDerivedPath : List Char
  deriving DecidableEq, Repr

/-- Embedding of `parseWalletUrl(walletUrl)`.  The external base58 public-key
parser is the parameter `isPk`. -/
def parseWalletUrl (isPk : List Char → Bool) (walletUrl : List Char) :
    Except WalletUrlError ParsedWalletUrl :=
  let u := trimWS walletUrl
  match stripWalletUrlStart u with
  | none => .error .invalidPrefixUrl
  | some (walletType, walletPath) =>
    -- the switch over the captured group always hits a supported case, so the
    -- `invalidWalletType` default branch cannot fire
    match extractIdentifierAndKey walletPath with
    | .error e => .error e
    | .ok (identifier, key) =>
      match evaluateWalletIdentifier isPk identifier with
      | .error e => .error e
      | .ok walletIdentifier =>
        match key with
        | none => .ok ⟨walletType, walletIdentifier, SOLANA_BIP44_BASE_PATH⟩
        | some k =>
          if k = [] then .ok ⟨walletType, walletIdentifier, SOLANA_BIP44_BASE_PATH⟩
          else
            match stripBip44 k with
            | some onlyKey =>
              (match testDerivedKeyNumbers onlyKey with
               | .error e => .error e
               | .ok finalPath =>
                 .ok ⟨walletType, walletIdentifier, SOLANA_BIP44_BASE_PATH ++ finalPath⟩)
            | none =>
              (match testDerivedKeyNumbers (k.dropWhile isSlashSpace) with
               | .error e => .error e
               | .ok finalPath =>
                 .ok ⟨walletType, walletIdentifier, SOLANA_BIP44_BASE_PATH ++ finalPath⟩)

/-- Claim C8: an explicitly empty `key=` is treated identically to an absent
key — for both supported wallet kinds the parse yields no identifier and the
bare base path `44'/501'`. -/
theorem parseWalletUrl_empty_key (isPk : List Char → Bool) :
    parseWalletUrl isPk ("usb://ledger?key=".data) = parseWalletUrl isPk ("usb://ledger".data)
    ∧ parseWalletUrl isPk ("usb://ledger?key=".data)
        = .ok ⟨.ledger, none, SOLANA_BIP44_BASE_PATH⟩
    ∧ parseWalletUrl isPk ("usb://trezor?key=".data) = parseWalletUrl isPk ("usb://trezor".data)
    ∧ parseWalletUrl isPk ("usb://trezor?key=".data)
        = .ok ⟨.trezor, none, SOLANA_BIP44_BASE_PATH⟩ :=
  ⟨rfl, rfl, rfl, rfl⟩

/-- Claim C6 (divergence witness): the numeric check on key segments uses the
unanchored regex `[0-9]+`, which tests only that a segment contains a digit.
At the failing input `usb://ledger?key=0a` the parser accepts the mixed
segment `0a` and returns path `44'/501'/0a`, contradicting the claim (and the
code's own error message); segments without any digit, such as `gaffer`, are
still rejected, and incidental whitespace around digits is trimmed as the
claim says. -/
theorem parseWalletUrl_unanchored_numeric_test :
    parseWalletUrl (fun _ => true) ("usb://ledger?key=0a".data)
      = .ok ⟨.ledger, none, SOLANA_BIP44_BASE_PATH ++ "/0a".data⟩
    ∧ parseWalletUrl (fun _ => true) ("usb://ledger?key=gaffer".data)
      = .error (.notNumbers ("gaffer".data))
    ∧ parseWalletUrl (fun _ => true) ("usb://ledger?key=0/ 1/ 3".data)
      = .ok ⟨.ledger, none, SOLANA_BIP44_BASE_PATH ++ "/0/1/3".data⟩ :=
  ⟨rfl, rfl, rfl⟩

/-! ## String lemmas used to settle the `parseWalletUrl` claims -/

theorem head?_mem {α : Type} {l : List α} {c : α} (h : l.head? = some c) : c ∈ l := by
  cases l with
  | nil => simp at h
  | cons a t =>
    simp at h
    subst h
    exact List.mem_cons_self a t

theorem getLast?_mem {α : Type} {l : List α} {c : α} (h : l.getLast? = some c) : c ∈ l := by
  have hr : l.reverse.head? = some c := by rw [List.head?_reverse]; exact h
  exact List.mem_reverse.mp (head?_mem hr)

theorem dropWhile_of_head {p : Char → Bool} {l : List Char} {c : Char}
    (h : l.head? = some c) (hc : p c = false) : l.dropWhile p = l := by
  cases l with
  | nil => rfl
  | cons a t =>
    simp at h
    subst h
    simp [List.dropWhile_cons, hc]

theorem trimWS_eq_self {l : List Char}
    (h1 : ∀ c, l.head? = some c → isWs c = false)
    (h2 : ∀ c, l.getLast? = some c → isWs c = false) : trimWS l = l := by
  unfold trimWS
  have hd : l.dropWhile isWs = l := by
    cases hh : l.head? with
    | none =>
      have : l = [] := by cases l with | nil => rfl | cons a t => simp at hh
      simp [this]
    | some c => exact dropWhile_of_head hh (h1 c hh)
  rw [hd]
  have hr : l.reverse.dropWhile isWs = l.reverse := by
    cases hh : l.reverse.head? with
    | none =>
      have : l.reverse = [] := by
        cases hrr : l.reverse with
        | nil => rfl
        | cons a t => rw [hrr] at hh; simp at hh
      simp [this]
    | some c =>
      have hlast : l.getLast? = some c := by rw [← List.head?_reverse]; exact hh
      exact dropWhile_of_head hh (h2 c hlast)
  rw [hr, List.reverse_reverse]

theorem takeWhile_append_all {p : Char → Bool} {A : List Char} (B : List Char)
    (h : ∀ c ∈ A, p c = true) : (A ++ B).takeWhile p = A ++ B.takeWhile p := by
  induction A with
  | nil => rfl
  | cons x xs ih =>
    have hrest : ∀ c ∈ xs, p c = true := fun c hc => h c (List.mem_cons_of_mem x hc)
    rw [List.cons_append, List.takeWhile_cons, if_pos (h x (List.mem_cons_self x xs)),
      ih hrest, List.cons_append]

theorem dropWhile_append_all {p : Char → Bool} {A : List Char} (B : List Char)
    (h : ∀ c ∈ A, p c = true) : (A ++ B).dropWhile p = B.dropWhile p := by
  induction A with
  | nil => rfl
  | cons x xs ih =>
    have hrest : ∀ c ∈ xs, p c = true := fun c hc => h c (List.mem_cons_of_mem x hc)
    rw [List.cons_append, List.dropWhile_cons, if_pos (h x (List.mem_cons_self x xs))]
    exact ih hrest

theorem takeWhile_all {p : Char → Bool} {A : List Char}
    (h : ∀ c ∈ A, p c = true) : A.takeWhile p = A := by
  have := takeWhile_append_all (p := p) [] h
  simpa using this

theorem dropWhile_none {p : Char → Bool} {A : List Char}
    (h : ∀ c ∈ A, p c = false) : A.dropWhile p = A := by
  cases hh : A.head? with
  | none =>
    have : A = [] := by cases A with | nil => rfl | cons a t => simp at hh
    simp [this]
  | some c => exact dropWhile_of_head hh (h c (head?_mem hh))

/-- Character-class facts about decimal digits. -/
theorem digit_not_ws {c : Char} (h : isDigitC c = true) : isWs c = false := by
  have hb : 48 ≤ c.toNat ∧ c.toNat ≤ 57 := by
    simpa [isDigitC] using h
  by_contra hne
  have hws : isWs c = true := by revert hne; cases isWs c <;> simp
  have h2 : ((c = '\t' ∨ c = '\n') ∨ c = '\r') ∨ c = ' ' := by
    simpa [isWs] using hws
  rcases h2 with ((rfl | rfl) | rfl) | rfl <;> revert hb <;> decide

theorem digit_ne_q {c : Char} (h : isDigitC c = true) : (c != '?') = true := by
  have hb : 48 ≤ c.toNat ∧ c.toNat ≤ 57 := by
    simpa [isDigitC] using h
  have : c ≠ '?' := by
    intro hc
    subst hc
    revert hb
    decide
  simpa using this

theorem digit_not_slashSpace {c : Char} (h : isDigitC c = true) : isSlashSpace c = false := by
  have hb : 48 ≤ c.toNat ∧ c.toNat ≤ 57 := by
    simpa [isDigitC] using h
  by_contra hne
  have hss : isSlashSpace c = true := by revert hne; cases isSlashSpace c <;> simp
  have h2 : c = '/' ∨ c = ' ' := by simpa [isSlashSpace] using hss
  rcases h2 with rfl | rfl <;> revert hb <;> decide

theorem digit_ne_slash {c : Char} (h : isDigitC c = true) : c ≠ '/' := by
  intro hc
  have := digit_not_slashSpace h
  subst hc
  revert this
  decide

/-! ## Lemmas about the identifier/key regex matcher -/

theorem tryTailAt_key (K : List Char) :
    tryTailAt ('?' :: ('k' :: 'e' :: 'y' :: '=' :: K)) = some (some K) := rfl

theorem searchK_hit (maxP rest0 : List Char) (kq : Option (List Char))
    (h : tryTailAt rest0 = some kq) :
    searchK maxP rest0 maxP.length = some (maxP, kq) := by
  cases hl : maxP.length with
  | zero =>
    have hmp : maxP = [] := List.length_eq_zero.mp hl
    subst hmp
    simp_all [searchK]
  | succ n =>
    have hdrop : maxP.drop (n + 1) = [] := by rw [← hl]; exact List.drop_length maxP
    have htake : maxP.take (n + 1) = maxP := by rw [← hl]; exact List.take_length maxP
    simp [searchK, hdrop, htake, h]

theorem matchQS_split (A B : List Char) (hA : ∀ c ∈ A, (c != '?') = true)
    (kq : Option (List Char)) (h : tryTailAt ('?' :: B) = some kq) :
    matchQS (A ++ '?' :: B) = some (A, kq) := by
  unfold matchQS
  have h1 : (A ++ '?' :: B).takeWhile (fun c => c != '?') = A := by
    rw [takeWhile_append_all _ hA]
    simp [List.takeWhile_cons]
  have h2 : (A ++ '?' :: B).dropWhile (fun c => c != '?') = '?' :: B := by
    rw [dropWhile_append_all _ hA]
    simp [List.dropWhile_cons]
  rw [h1, h2]
  exact searchK_hit A ('?' :: B) kq h

theorem matchQS_noq (A : List Char) (hA : ∀ c ∈ A, (c != '?') = true) :
    matchQS A = some (A, none) := by
  unfold matchQS
  have h1 : A.takeWhile (fun c => c != '?') = A := takeWhile_all hA
  have h2 : A.dropWhile (fun c => c != '?') = [] := by
    have := dropWhile_append_all (p := fun c => c != '?') [] hA
    simpa using this
  rw [h1, h2]
  exact searchK_hit A [] none rfl

/-! ## Joining and re-splitting numeric key segments -/

/-- Slash-joined rendering of a list of key segments (the shape of a `keyspec`
in the claims). -/
def joinSlash : List (List Char) → List Char
  | [] => []
  | [s] => s
  | s :: ss => s ++ '/' :: joinSlash ss

/-- Well-formed numeric key segment: nonempty, all decimal digits. -/
def goodSeg (s : List Char) : Prop :=
  s ≠ [] ∧ ∀ c ∈ s, isDigitC c = true

instance (s : List Char) : Decidable (goodSeg s) := by
  unfold goodSeg
  infer_instance

theorem joinSlash_ne_nil {segs : List (List Char)} (h : segs ≠ [])
    (h2 : ∀ s ∈ segs, s ≠ []) : joinSlash segs ≠ [] := by
  cases segs with
  | nil => exact absurd rfl h
  | cons s ss =>
    cases ss with
    | nil => exact h2 s (by simp)
    | cons t ts =>
      show s ++ '/' :: joinSlash (t :: ts) ≠ []
      simp

theorem mem_joinSlash : ∀ (segs : List (List Char)) (c : Char),
    c ∈ joinSlash segs → c = '/' ∨ ∃ s ∈ segs, c ∈ s := by
  intro segs
  induction segs with
  | nil => intro c hc; simp [joinSlash] at hc
  | cons s ss ih =>
    intro c hc
    cases ss with
    | nil =>
      right
      exact ⟨s, by simp, by simpa [joinSlash] using hc⟩
    | cons t ts =>
      have hc2 : c ∈ s ++ '/' :: joinSlash (t :: ts) := hc
      rcases List.mem_append.mp hc2 with hs | hrest
      · exact Or.inr ⟨s, by simp, hs⟩
      · rcases List.mem_cons.mp hrest with rfl | hj
        · exact Or.inl rfl
        · rcases ih c hj with h1 | ⟨u, hu, hcu⟩
          · exact Or.inl h1
          · exact Or.inr ⟨u, by simp [hu], hcu⟩

theorem head?_joinSlash {s : List Char} (ss : List (List Char)) (h : s ≠ []) :
    (joinSlash (s :: ss)).head? = s.head? := by
  cases ss with
  | nil => rfl
  | cons t ts =>
    show (s ++ '/' :: joinSlash (t :: ts)).head? = s.head?
    rw [List.head?_append]
    cases hh : s.head? with
    | none =>
      exfalso
      cases s with
      | nil => exact h rfl
      | cons a u => simp at hh
    | some c => rfl

theorem getLast?_joinSlash {segs : List (List Char)} (h : segs ≠ [])
    (h2 : ∀ s ∈ segs, s ≠ []) :
    ∃ c, (joinSlash segs).getLast? = some c ∧ c ∈ joinSlash segs := by
  have hne := joinSlash_ne_nil h h2
  cases hg : (joinSlash segs).getLast? with
  | none =>
    exfalso
    have hs : (joinSlash segs).getLast?.isSome := List.getLast?_isSome.mpr hne
    rw [hg] at hs
    simp at hs
  | some c => exact ⟨c, rfl, getLast?_mem hg⟩

theorem splitOnChar_no_sep {sep : Char} : ∀ (l : List Char),
    (∀ c ∈ l, c ≠ sep) → splitOnChar sep l = [l] := by
  intro l
  induction l with
  | nil => intro _; rfl
  | cons a t ih =>
    intro h
    have ha : a ≠ sep := h a (by simp)
    have ht := ih (fun c hc => h c (by simp [hc]))
    simp [splitOnChar, ha, ht]

theorem splitOnChar_append_nosep {sep : Char} : ∀ (A : List Char),
    (∀ c ∈ A, c ≠ sep) → ∀ (B : List Char),
      splitOnChar sep (A ++ sep :: B) = A :: splitOnChar sep B := by
  intro A
  induction A with
  | nil =>
    intro _ B
    simp [splitOnChar]
  | cons a t ih =>
    intro h B
    have ha : a ≠ sep := h a (by simp)
    have ht := ih (fun c hc => h c (by simp [hc])) B
    simp only [List.cons_append, splitOnChar, List.append_eq]
    rw [ht]
    simp [ha]

theorem splitOnChar_joinSlash : ∀ (segs : List (List Char)), segs ≠ [] →
    (∀ s ∈ segs, ∀ c ∈ s, c ≠ '/') →
    splitOnChar '/' (joinSlash segs) = segs := by
  intro segs
  induction segs with
  | nil => intro h; exact absurd rfl h
  | cons s ss ih =>
    intro _ h
    cases ss with
    | nil => exact splitOnChar_no_sep s (h s (by simp))
    | cons t ts =>
      show splitOnChar '/' (s ++ '/' :: joinSlash (t :: ts)) = s :: t :: ts
      rw [splitOnChar_append_nosep s (h s (by simp))]
      rw [ih (by simp) (fun u hu c hc => h u (by simp [hu]) c hc)]

/-! ## `testDerivedKeyNumbers` on well-formed numeric segments -/

theorem trimWS_goodSeg {s : List Char} (h : goodSeg s) : trimWS s = s := by
  refine trimWS_eq_self ?_ ?_
  · intro c hc
    exact digit_not_ws (h.2 c (head?_mem hc))
  · intro c hc
    exact digit_not_ws (h.2 c (getLast?_mem hc))

theorem containsDigit_goodSeg {s : List Char} (h : goodSeg s) : containsDigit s = true := by
  cases hs : s with
  | nil => exact absurd hs h.1
  | cons a t =>
    have := h.2 a (by simp [hs])
    simp [containsDigit, List.any_cons, this]

theorem checkPathItems_digits (dp : List Char) :
    ∀ (segs : List (List Char)), (∀ s ∈ segs, goodSeg s) →
      ∀ acc, checkPathItems dp segs acc = .ok (acc ++ segs.flatMap (fun s => '/' :: s)) := by
  intro segs
  induction segs with
  | nil => intro _ acc; simp [checkPathItems]
  | cons s ss ih =>
    intro h acc
    have hg : goodSeg s := h s (by simp)
    have ht : trimWS s = s := trimWS_goodSeg hg
    simp only [checkPathItems, ht, containsDigit_goodSeg hg, if_true]
    rw [ih (fun u hu => h u (by simp [hu])) (acc ++ '/' :: s)]
    simp [List.flatMap_cons, List.append_assoc]

theorem testDerivedKeyNumbers_join (segs : List (List Char)) (hne : segs ≠ [])
    (h : ∀ s ∈ segs, goodSeg s) :
    testDerivedKeyNumbers (joinSlash segs) = .ok (segs.flatMap (fun s => '/' :: s)) := by
  have hne2 : ∀ s ∈ segs, s ≠ [] := fun s hs => (h s hs).1
  have htrim : trimWS (joinSlash segs) = joinSlash segs := by
    refine trimWS_eq_self ?_ ?_
    · intro c hc
      rcases mem_joinSlash segs c (head?_mem hc) with rfl | ⟨s, hs, hcs⟩
      · rfl
      · exact digit_not_ws ((h s hs).2 c hcs)
    · intro c hc
      rcases mem_joinSlash segs c (getLast?_mem hc) with rfl | ⟨s, hs, hcs⟩
      · rfl
      · exact digit_not_ws ((h s hs).2 c hcs)
  have hsplit : splitOnChar '/' (joinSlash segs) = segs :=
    splitOnChar_joinSlash segs hne (fun s hs c hc => digit_ne_slash ((h s hs).2 c hc))
  unfold testDerivedKeyNumbers
  rw [htrim, hsplit]
  simp only [hne, if_neg hne]
  exact checkPathItems_digits (joinSlash segs) segs h []

/-! ## Stage lemmas for `parseWalletUrl` on well-formed URLs -/

theorem not_ws_head_append {A B : List Char}
    (hA : ∀ c, A.head? = some c → isWs c = false)
    (hB : ∀ c, B.head? = some c → isWs c = false) :
    ∀ c, (A ++ B).head? = some c → isWs c = false := by
  intro c hc
  rw [List.head?_append] at hc
  cases hh : A.head? with
  | none =>
    rw [hh] at hc
    simp at hc
    exact hB c hc
  | some d =>
    rw [hh] at hc
    simp at hc
    subst hc
    exact hA d hh

theorem getLast?_append_of_ne_nil {Y : List Char} (X : List Char) (h : Y ≠ []) :
    (X ++ Y).getLast? = Y.getLast? := by
  rw [List.getLast?_append]
  cases hg : Y.getLast? with
  | none =>
    exfalso
    have hs : Y.getLast?.isSome := List.getLast?_isSome.mpr h
    rw [hg] at hs
    simp at hs
  | some c => simp

theorem not_ws_getLast_qkey (pkStr K : List Char)
    (hlastK : ∀ c, K.getLast? = some c → isWs c = false) :
    ∀ c, (pkStr ++ '?' :: 'k' :: 'e' :: 'y' :: '=' :: K).getLast? = some c → isWs c = false := by
  intro c hc
  rw [getLast?_append_of_ne_nil pkStr (by simp)] at hc
  rw [show ('?' :: 'k' :: 'e' :: 'y' :: '=' :: K) = "?key=".data ++ K from rfl,
    List.getLast?_append] at hc
  cases hk : K.getLast? with
  | none =>
    rw [hk] at hc
    simp at hc
    have : c = '=' := hc.symm
    subst this
    decide
  | some d =>
    rw [hk] at hc
    simp at hc
    subst hc
    exact hlastK _ hk

theorem extract_pk_key (pkStr K : List Char)
    (hpkq : ∀ c ∈ pkStr, (c != '?') = true)
    (hphead : ∀ c, pkStr.head? = some c → isWs c = false)
    (hKlast : ∀ c, K.getLast? = some c → isWs c = false) :
    extractIdentifierAndKey (pkStr ++ '?' :: 'k' :: 'e' :: 'y' :: '=' :: K)
      = .ok (pkStr, some K) := by
  have htrim : trimWS (pkStr ++ '?' :: 'k' :: 'e' :: 'y' :: '=' :: K)
      = pkStr ++ '?' :: 'k' :: 'e' :: 'y' :: '=' :: K := by
    refine trimWS_eq_self ?_ (not_ws_getLast_qkey pkStr K hKlast)
    refine not_ws_head_append hphead ?_
    intro c hc
    simp at hc
    subst hc
    decide
  unfold extractIdentifierAndKey
  rw [htrim, matchQS_split pkStr _ hpkq (some K) (tryTailAt_key K)]

theorem evaluateWalletIdentifier_valid (isPk : List Char → Bool) (pk : List Char)
    (h1 : pk ≠ []) (h2 : ∀ c ∈ pk, isSlashSpace c = false) (h3 : isPk pk = true) :
    evaluateWalletIdentifier isPk pk = .ok (some pk) := by
  have hadj : (pk.reverse.dropWhile isSlashSpace).reverse = pk := by
    rw [dropWhile_none (fun c hc => h2 c (List.mem_reverse.mp hc)), List.reverse_reverse]
  simp only [evaluateWalletIdentifier]
  rw [hadj]
  simp [h1, h3]

theorem not_ws_getLast_preKey (pre K : List Char)
    (hlastK : ∀ c, K.getLast? = some c → isWs c = false) :
    ∀ c, (pre ++ ("?key=".data ++ K)).getLast? = some c → isWs c = false := by
  intro c hc
  rw [getLast?_append_of_ne_nil pre (by simp)] at hc
  exact not_ws_getLast_qkey [] K hlastK c hc

theorem head_u_not_ws {l : List Char} (h : l.head? = some 'u') :
    ∀ c, l.head? = some c → isWs c = false := by
  intro c hc
  rw [h] at hc
  have : c = 'u' := by injection hc with h2; exact h2.symm
  subst this
  decide

theorem stripStart_slash (wt : WalletType) (X : List Char) :
    stripWalletUrlStart ("usb://".data ++ kindToken wt ++ ('/' :: X)) = some (wt, X) := by
  cases wt <;> rfl

theorem stripStart_q (wt : WalletType) (X : List Char) :
    stripWalletUrlStart ("usb://".data ++ kindToken wt ++ ('?' :: X)) = some (wt, '?' :: X) := by
  cases wt <;> rfl

theorem not_ws_getLast_url_pk (wt : WalletType) (pkStr K : List Char)
    (hK : ∀ c, K.getLast? = some c → isWs c = false) :
    ∀ c, ("usb://".data ++ kindToken wt ++ (('/' :: pkStr) ++ ("?key=".data ++ K))).getLast?
        = some c → isWs c = false := by
  cases wt
  · exact not_ws_getLast_preKey ("usb://trezor/".data ++ pkStr) K hK
  · exact not_ws_getLast_preKey ("usb://ledger/".data ++ pkStr) K hK

theorem not_ws_getLast_url_nopk (wt : WalletType) (K : List Char)
    (hK : ∀ c, K.getLast? = some c → isWs c = false) :
    ∀ c, ("usb://".data ++ kindToken wt ++ ("?key=".data ++ K)).getLast?
        = some c → isWs c = false := by
  cases wt
  · exact not_ws_getLast_preKey ("usb://trezor".data) K hK
  · exact not_ws_getLast_preKey ("usb://ledger".data) K hK

/-- Successful run of the parser on a key that does not carry the BIP44
prefix: each stage equation is given as a hypothesis and the computation is
collapsed stage by stage. -/
theorem parseWalletUrl_pipeline (isPk : List Char → Bool) (wt : WalletType)
    (url pkPart : List Char) (pkRes : Option (List Char)) (K fin : List Char)
    (htrim : trimWS url = url)
    (hstrip : stripWalletUrlStart url = some (wt, pkPart ++ '?' :: 'k' :: 'e' :: 'y' :: '=' :: K))
    (hextract : extractIdentifierAndKey (pkPart ++ '?' :: 'k' :: 'e' :: 'y' :: '=' :: K)
      = .ok (pkPart, some K))
    (heval : evaluateWalletIdentifier isPk pkPart = .ok pkRes)
    (hKne : K ≠ [])
    (hbip : stripBip44 K = none)
    (hdrop : K.dropWhile isSlashSpace = K)
    (htest : testDerivedKeyNumbers K = .ok fin) :
    parseWalletUrl isPk url = .ok ⟨wt, pkRes, SOLANA_BIP44_BASE_PATH ++ fin⟩ := by
  simp only [parseWalletUrl, htrim, hstrip, hextract, heval, if_neg hKne, hbip, hdrop, htest]

/-- Successful run of the parser on a key that carries the BIP44 prefix,
which is stripped before validation. -/
theorem parseWalletUrl_pipeline_bip (isPk : List Char → Bool) (wt : WalletType)
    (url pkPart : List Char) (pkRes : Option (List Char)) (K K2 fin : List Char)
    (htrim : trimWS url = url)
    (hstrip : stripWalletUrlStart url = some (wt, pkPart ++ '?' :: 'k' :: 'e' :: 'y' :: '=' :: K))
    (hextract : extractIdentifierAndKey (pkPart ++ '?' :: 'k' :: 'e' :: 'y' :: '=' :: K)
      = .ok (pkPart, some K))
    (heval : evaluateWalletIdentifier isPk pkPart = .ok pkRes)
    (hKne : K ≠ [])
    (hbip : stripBip44 K = some K2)
    (htest : testDerivedKeyNumbers K2 = .ok fin) :
    parseWalletUrl isPk url = .ok ⟨wt, pkRes, SOLANA_BIP44_BASE_PATH ++ fin⟩ := by
  simp only [parseWalletUrl, htrim, hstrip, hextract, heval, if_neg hKne, hbip, htest]

/-- Claim C3: for every URL `usb://<kind>[/<valid pubkey>]?key=<suffix>` whose
suffix is a `/`-delimited sequence of non-negative integers, `parseWalletUrl`
succeeds with `parsedDerivedPath` equal to the base path `44'/501'` extended
by one `/`-component per suffix segment; a suffix already carrying the fixed
BIP44 prefix (here `44/501/`) has the prefix stripped first and the remainder
appended the same way. -/
theorem parseWalletUrl_numeric_key (isPk : List Char → Bool) (wt : WalletType)
    (pkStr : List Char) (segs : List (List Char))
    (hpk1 : pkStr ≠ [])
    (hpk2 : ∀ c ∈ pkStr, (c != '?') = true ∧ isSlashSpace c = false ∧ isWs c = false)
    (hpk3 : isPk pkStr = true)
    (hsegs : segs ≠ [])
    (hseg : ∀ s ∈ segs, goodSeg s)
    (hnb : stripBip44 (joinSlash segs) = none) :
    parseWalletUrl isPk
        ("usb://".data ++ kindToken wt ++ (('/' :: pkStr) ++ ("?key=".data ++ joinSlash segs)))
      = .ok ⟨wt, some pkStr, SOLANA_BIP44_BASE_PATH ++ segs.flatMap (fun s => '/' :: s)⟩
    ∧ parseWalletUrl isPk ("usb://".data ++ kindToken wt ++ ("?key=".data ++ joinSlash segs))
      = .ok ⟨wt, none, SOLANA_BIP44_BASE_PATH ++ segs.flatMap (fun s => '/' :: s)⟩
    ∧ parseWalletUrl isPk
        ("usb://".data ++ kindToken wt
          ++ (('/' :: pkStr) ++ ("?key=44/501/".data ++ joinSlash segs)))
      = .ok ⟨wt, some pkStr, SOLANA_BIP44_BASE_PATH ++ segs.flatMap (fun s => '/' :: s)⟩ := by
  have hsegne : ∀ s ∈ segs, s ≠ [] := fun s hs => (hseg s hs).1
  have hJne : joinSlash segs ≠ [] := joinSlash_ne_nil hsegs hsegne
  have hKlast : ∀ c, (joinSlash segs).getLast? = some c → isWs c = false := by
    intro c hc
    rcases mem_joinSlash segs c (getLast?_mem hc) with rfl | ⟨s, hs, hcs⟩
    · decide
    · exact digit_not_ws ((hseg s hs).2 c hcs)
  have htest : testDerivedKeyNumbers (joinSlash segs) = .ok (segs.flatMap fun s => '/' :: s) :=
    testDerivedKeyNumbers_join segs hsegs hseg
  have hdrop : (joinSlash segs).dropWhile isSlashSpace = joinSlash segs := by
    cases segs with
    | nil => exact absurd rfl hsegs
    | cons s ss =>
      have hg := hseg s (by simp)
      obtain ⟨a, t, hs⟩ : ∃ a t, s = a :: t := by
        cases s with
        | nil => exact absurd rfl hg.1
        | cons a t => exact ⟨a, t, rfl⟩
      have hh : (joinSlash (s :: ss)).head? = some a := by
        rw [head?_joinSlash ss hg.1, hs]
        rfl
      exact dropWhile_of_head hh (digit_not_slashSpace (hg.2 a (by simp [hs])))
  have hpkq : ∀ c ∈ pkStr, (c != '?') = true := fun c hc => (hpk2 c hc).1
  have hpss : ∀ c ∈ pkStr, isSlashSpace c = false := fun c hc => (hpk2 c hc).2.1
  have hphead : ∀ c, pkStr.head? = some c → isWs c = false :=
    fun c hc => (hpk2 c (head?_mem hc)).2.2
  have heval := evaluateWalletIdentifier_valid isPk pkStr hpk1 hpss hpk3
  have hKlast3 : ∀ c, ("44/501/".data ++ joinSlash segs).getLast? = some c → isWs c = false := by
    intro c hc
    rw [getLast?_append_of_ne_nil _ hJne] at hc
    exact hKlast c hc
  refine ⟨?_, ?_, ?_⟩
  · exact parseWalletUrl_pipeline isPk wt _ pkStr (some pkStr) (joinSlash segs) _
      (trimWS_eq_self (head_u_not_ws rfl) (not_ws_getLast_url_pk wt pkStr (joinSlash segs) hKlast))
      (stripStart_slash wt (pkStr ++ ("?key=".data ++ joinSlash segs)))
      (extract_pk_key pkStr (joinSlash segs) hpkq hphead hKlast)
      heval hJne hnb hdrop htest
  · exact parseWalletUrl_pipeline isPk wt _ [] none (joinSlash segs) _
      (trimWS_eq_self (head_u_not_ws rfl) (not_ws_getLast_url_nopk wt (joinSlash segs) hKlast))
      (stripStart_q wt ('k' :: 'e' :: 'y' :: '=' :: joinSlash segs))
      (extract_pk_key [] (joinSlash segs) (by simp) (by intro c hc; simp at hc) hKlast)
      rfl hJne hnb hdrop htest
  · exact parseWalletUrl_pipeline_bip isPk wt _ pkStr (some pkStr)
      ("44/501/".data ++ joinSlash segs) (joinSlash segs) _
      (trimWS_eq_self (head_u_not_ws rfl)
        (not_ws_getLast_url_pk wt pkStr ("44/501/".data ++ joinSlash segs) hKlast3))
      (stripStart_slash wt (pkStr ++ ("?key=".data ++ ("44/501/".data ++ joinSlash segs))))
      (extract_pk_key pkStr ("44/501/".data ++ joinSlash segs) hpkq hphead hKlast3)
      heval (by simp) rfl htest

/-- Concrete instance of claim C3: `usb://ledger/A?key=0/1` (with `A` accepted
as a public key), `usb://ledger?key=0/1` and `usb://ledger/A?key=44/501/0/1`
all parse to the derived path `44'/501'/0/1`. -/
theorem parseWalletUrl_numeric_key_witness :
    parseWalletUrl (fun _ => true)
        ("usb://".data ++ kindToken .ledger
          ++ (('/' :: "A".data) ++ ("?key=".data ++ joinSlash [['0'], ['1']])))
      = .ok ⟨.ledger, some "A".data,
          SOLANA_BIP44_BASE_PATH ++ ([['0'], ['1']] : List (List Char)).flatMap (fun s => '/' :: s)⟩
    ∧ parseWalletUrl (fun _ => true)
        ("usb://".data ++ kindToken .ledger ++ ("?key=".data ++ joinSlash [['0'], ['1']]))
      = .ok ⟨.ledger, none,
          SOLANA_BIP44_BASE_PATH ++ ([['0'], ['1']] : List (List Char)).flatMap (fun s => '/' :: s)⟩
    ∧ parseWalletUrl (fun _ => true)
        ("usb://".data ++ kindToken .ledger
          ++ (('/' :: "A".data) ++ ("?key=44/501/".data ++ joinSlash [['0'], ['1']])))
      = .ok ⟨.ledger, some "A".data,
          SOLANA_BIP44_BASE_PATH
            ++ ([['0'], ['1']] : List (List Char)).flatMap (fun s => '/' :: s)⟩ :=
  parseWalletUrl_numeric_key (fun _ => true) .ledger "A".data [['0'], ['1']]
    (by decide) (by decide) rfl (by decide) (by decide) (by decide)

/-! ## Claim C7: failures with the `InvalidWalletUrl` kind -/

theorem isPrefixOf_true_iff : ∀ (l₁ l₂ : List Char), l₁.isPrefixOf l₂ = true ↔ l₁ <+: l₂ := by
  intro l₁
  induction l₁ with
  | nil =>
    intro l₂
    simp [List.isPrefixOf]
  | cons a t ih =>
    intro l₂
    cases l₂ with
    | nil => simp [List.isPrefixOf]
    | cons b u =>
      simp only [List.isPrefixOf, Bool.and_eq_true, beq_iff_eq, ih u]
      constructor
      · rintro ⟨rfl, w, hw⟩
        exact ⟨w, by rw [List.cons_append, hw]⟩
      · rintro ⟨w, hw⟩
        rw [List.cons_append] at hw
        injection hw with h1 h2
        exact ⟨h1, w, h2⟩

theorem stripWalletUrlStart_none {u : List Char}
    (h : ¬("usb://trezor".data <+: u ∨ "usb://ledger".data <+: u)) :
    stripWalletUrlStart u = none := by
  have h1 : "usb://trezor".data.isPrefixOf u = false := by
    cases hb : "usb://trezor".data.isPrefixOf u
    · rfl
    · exact absurd (Or.inl ((isPrefixOf_true_iff _ _).mp hb)) h
  have h2 : "usb://ledger".data.isPrefixOf u = false := by
    cases hb : "usb://ledger".data.isPrefixOf u
    · rfl
    · exact absurd (Or.inr ((isPrefixOf_true_iff _ _).mp hb)) h
  unfold stripWalletUrlStart
  simp [h1, h2]

theorem isPrefixOf_append_self (A B : List Char) : A.isPrefixOf (A ++ B) = true :=
  (isPrefixOf_true_iff A (A ++ B)).mpr ⟨B, rfl⟩

theorem stripStart_general (wt : WalletType) (X : List Char) :
    stripWalletUrlStart ("usb://".data ++ kindToken wt ++ X) = some (wt, dropOptionalSlash X) := by
  cases wt
  · have he : ("usb://".data ++ kindToken WalletType.trezor ++ X)
        = "usb://trezor".data ++ X := rfl
    rw [he]
    unfold stripWalletUrlStart
    rw [isPrefixOf_append_self]
    have hd : ("usb://trezor".data ++ X).drop 12 = X := by
      have h12 : (12 : Nat) = ("usb://trezor".data : List Char).length := rfl
      rw [h12, List.drop_left]
    simp only [if_true, hd]
  · have he : ("usb://".data ++ kindToken WalletType.ledger ++ X)
        = "usb://ledger".data ++ X := rfl
    rw [he]
    unfold stripWalletUrlStart
    have hf : "usb://trezor".data.isPrefixOf ("usb://ledger".data ++ X) = false := rfl
    rw [hf, isPrefixOf_append_self]
    have hd : ("usb://ledger".data ++ X).drop 12 = X := by
      have h12 : (12 : Nat) = ("usb://ledger".data : List Char).length := rfl
      rw [h12, List.drop_left]
    simp only [if_true, Bool.false_eq_true, if_false, hd]

theorem take4_key_start {l : List Char} (h : l.take 4 = "key=".data) :
    "key=".data <+: l := by
  have : l.take 4 <+: l := ⟨l.drop 4, List.take_append_drop 4 l⟩
  rwa [h] at this

theorem key_start_split {D B : List Char} (h : "key=".data <+: (D ++ '?' :: B)) :
    "key=".data <+: D := by
  rcases h with ⟨t, ht⟩
  rcases D with _ | ⟨d1, _ | ⟨d2, _ | ⟨d3, _ | ⟨d4, rest⟩⟩⟩⟩
  · simp at ht
  · simp at ht
  · simp at ht
  · simp at ht
  · simp only [List.cons_append, List.cons.injEq] at ht
    obtain ⟨hk, he, hy, heq, _⟩ := ht
    subst hk
    subst he
    subst hy
    subst heq
    exact ⟨rest, rfl⟩

theorem key_infix_of_suffix {A D : List Char} (hsuf : D <:+ A)
    (h : "key=".data <+: D) : "key=".data <:+: A := by
  rcases h with ⟨t, ht⟩
  rcases hsuf with ⟨s, hs⟩
  exact ⟨s, t, by rw [List.append_assoc, ht, hs]⟩

theorem tryTail_fail_at {A B : List Char} (k : Nat)
    (hA1 : ∀ c ∈ A, c ≠ '?')
    (hA2 : ¬("key=".data <:+: A))
    (hB1 : B ≠ [])
    (hB2 : ¬("key=".data <+: B)) :
    tryTailAt (A.drop k ++ '?' :: B) = none := by
  cases hd : A.drop k with
  | nil =>
    show tryTailAt ('?' :: B) = none
    have hk : (B.take 4 = "key=".data) = False :=
      eq_false (fun h => hB2 (take4_key_start h))
    simp [tryTailAt, tryTailCore, hk, hB1]
  | cons c rest =>
    have hc : c ∈ A := (List.drop_subset k A) (by rw [hd]; exact List.mem_cons_self c rest)
    have hcq : c ≠ '?' := hA1 c hc
    show tryTailAt (c :: (rest ++ '?' :: B)) = none
    have hk : ¬ ((c :: (rest ++ '?' :: B)).take 4 = "key=".data) := by
      intro htk
      apply hA2
      exact key_infix_of_suffix (hd ▸ List.drop_suffix k A)
        (key_start_split (D := c :: rest) (take4_key_start htk))
    simp only [tryTailAt, if_neg hcq]
    unfold tryTailCore
    rw [if_neg hk, if_neg (show ¬(c :: (rest ++ '?' :: B) = []) by simp)]

theorem searchK_fail {A B : List Char}
    (hA1 : ∀ c ∈ A, c ≠ '?')
    (hA2 : ¬("key=".data <:+: A))
    (hB1 : B ≠ [])
    (hB2 : ¬("key=".data <+: B)) :
    ∀ k, searchK A ('?' :: B) k = none := by
  intro k
  induction k with
  | zero =>
    have h0 := tryTail_fail_at (A := A) (B := B) 0 hA1 hA2 hB1 hB2
    rw [List.drop_zero] at h0
    simp [searchK, h0]
  | succ k ih => simp [searchK, tryTail_fail_at (k + 1) hA1 hA2 hB1 hB2, ih]

theorem matchQS_fail {A B : List Char}
    (hA1 : ∀ c ∈ A, c ≠ '?')
    (hA2 : ¬("key=".data <:+: A))
    (hB1 : B ≠ [])
    (hB2 : ¬("key=".data <+: B)) :
    matchQS (A ++ '?' :: B) = none := by
  unfold matchQS
  have hA1b : ∀ c ∈ A, (c != '?') = true := fun c hc => by simpa using hA1 c hc
  have h1 : (A ++ '?' :: B).takeWhile (fun c => c != '?') = A := by
    rw [takeWhile_append_all _ hA1b]
    simp [List.takeWhile_cons]
  have h2 : (A ++ '?' :: B).dropWhile (fun c => c != '?') = '?' :: B := by
    rw [dropWhile_append_all _ hA1b]
    simp [List.dropWhile_cons]
  rw [h1, h2]
  exact searchK_fail hA1 hA2 hB1 hB2 A.length

theorem dropWhile_append_fixed {p : Char → Bool} {Y : List Char} (hY : Y.dropWhile p = Y) :
    ∀ X : List Char, (X ++ Y).dropWhile p = X.dropWhile p ++ Y := by
  intro X
  induction X with
  | nil => simpa using hY
  | cons x xs ih =>
    by_cases hx : p x = true
    · simp [List.dropWhile_cons, hx, ih]
    · have hx2 : p x = false := by revert hx; cases p x <;> simp
      simp [List.dropWhile_cons, hx2]

theorem trimTrailing_eq_self {l : List Char}
    (h2 : ∀ c, l.getLast? = some c → isWs c = false) :
    (l.reverse.dropWhile isWs).reverse = l := by
  have hr : l.reverse.dropWhile isWs = l.reverse := by
    cases hh : l.reverse.head? with
    | none =>
      have : l.reverse = [] := by
        cases hrr : l.reverse with
        | nil => rfl
        | cons a t => rw [hrr] at hh; simp at hh
      simp [this]
    | some c =>
      have hlast : l.getLast? = some c := by rw [← List.head?_reverse]; exact hh
      exact dropWhile_of_head hh (h2 c hlast)
  rw [hr, List.reverse_reverse]

theorem trimWS_pre_q {X B : List Char} (hB1 : B ≠ [])
    (hB3 : ∀ c, B.getLast? = some c → isWs c = false) :
    trimWS (X ++ '?' :: B) = X.dropWhile isWs ++ '?' :: B := by
  unfold trimWS
  have hq : ('?' :: B).dropWhile isWs = '?' :: B := by
    have : isWs '?' = false := rfl
    simp [List.dropWhile_cons, this]
  rw [dropWhile_append_fixed hq X]
  apply trimTrailing_eq_self
  intro c hc
  rw [getLast?_append_of_ne_nil _ (by simp)] at hc
  rw [show ('?' :: B) = ['?'] ++ B from rfl, getLast?_append_of_ne_nil ['?'] hB1] at hc
  exact hB3 c hc

theorem extract_fail {P B : List Char}
    (hA1 : ∀ c ∈ P, c ≠ '?')
    (hA2 : ¬("key=".data <:+: P))
    (hB1 : B ≠ [])
    (hB2 : ¬("key=".data <+: B))
    (hB3 : ∀ c, B.getLast? = some c → isWs c = false) :
    extractIdentifierAndKey (P ++ '?' :: B) = .error .invalidUrl := by
  unfold extractIdentifierAndKey
  rw [trimWS_pre_q hB1 hB3]
  have hsub : P.dropWhile isWs <:+ P := List.dropWhile_suffix _
  have hA1d : ∀ c ∈ P.dropWhile isWs, c ≠ '?' := fun c hc => hA1 c (hsub.subset hc)
  have hA2d : ¬("key=".data <:+: P.dropWhile isWs) := fun h => hA2 (h.trans hsub.isInfix)
  rw [matchQS_fail hA1d hA2d hB1 hB2]

theorem parseWalletUrl_query_fail (isPk : List Char → Bool) (wt : WalletType)
    (A B : List Char)
    (hA1 : ∀ c ∈ A, c ≠ '?')
    (hA2 : ¬("key=".data <:+: A))
    (hB1 : B ≠ [])
    (hB2 : ¬("key=".data <+: B))
    (hB3 : ∀ c, B.getLast? = some c → isWs c = false) :
    parseWalletUrl isPk ("usb://".data ++ kindToken wt ++ (A ++ '?' :: B))
      = .error .invalidUrl := by
  have htrim : trimWS ("usb://".data ++ kindToken wt ++ (A ++ '?' :: B))
      = "usb://".data ++ kindToken wt ++ (A ++ '?' :: B) := by
    refine trimWS_eq_self (head_u_not_ws rfl) ?_
    intro c hc
    rw [getLast?_append_of_ne_nil _ (show A ++ '?' :: B ≠ [] by simp)] at hc
    rw [getLast?_append_of_ne_nil A (by simp)] at hc
    rw [show ('?' :: B) = ['?'] ++ B from rfl, getLast?_append_of_ne_nil ['?'] hB1] at hc
    exact hB3 c hc
  have hstrip := stripStart_general wt (A ++ '?' :: B)
  cases A with
  | nil =>
    have hex := extract_fail (P := []) (by simp) (by decide) hB1 hB2 hB3
    have hdq : dropOptionalSlash ('?' :: B) = '?' :: B := rfl
    simp only [List.nil_append] at hex hstrip htrim ⊢
    simp only [parseWalletUrl, htrim, hstrip, hdq, hex]
  | cons a A2 =>
    by_cases ha : a = '/'
    · subst ha
      have hA1t : ∀ c ∈ A2, c ≠ '?' := fun c hc => hA1 c (by simp [hc])
      have hA2t : ¬("key=".data <:+: A2) := fun h => hA2 (List.infix_cons h)
      have hex := extract_fail (P := A2) hA1t hA2t hB1 hB2 hB3
      have hdq : dropOptionalSlash (('/' :: A2) ++ '?' :: B) = A2 ++ '?' :: B := rfl
      simp only [parseWalletUrl, htrim, hstrip, hdq, hex]
    · have hex := extract_fail (P := a :: A2) hA1 hA2 hB1 hB2 hB3
      have hdq : dropOptionalSlash ((a :: A2) ++ '?' :: B) = (a :: A2) ++ '?' :: B := by
        show dropOptionalSlash (a :: (A2 ++ '?' :: B)) = a :: (A2 ++ '?' :: B)
        simp [dropOptionalSlash, ha]
      simp only [parseWalletUrl, htrim, hstrip, hdq, hex]

/-- Claim C7 (amended): an input whose whitespace-trimmed form does not begin
with `usb://trezor` or `usb://ledger` fails with the `InvalidWalletUrl` kind;
and a URL `usb://<kind><pre>?<query>` whose `<pre>` part contains no `?` and
no occurrence of `key=`, and whose `<query>` part is nonempty, does not begin
with `key=`, and does not end in whitespace, also fails with the
`InvalidWalletUrl` kind. -/
theorem parseWalletUrl_invalidWalletUrl_kinds (isPk : List Char → Bool) :
    (∀ url : List Char,
        ¬("usb://trezor".data <+: trimWS url ∨ "usb://ledger".data <+: trimWS url) →
        ∃ e, parseWalletUrl isPk url = .error e ∧ e.kind = ErrKind.invalidWalletUrl)
    ∧ (∀ (wt : WalletType) (A B : List Char),
        (∀ c ∈ A, c ≠ '?') →
        ¬("key=".data <:+: A) →
        B ≠ [] →
        ¬("key=".data <+: B) →
        (∀ c, B.getLast? = some c → isWs c = false) →
        ∃ e, parseWalletUrl isPk ("usb://".data ++ kindToken wt ++ (A ++ '?' :: B)) = .error e
          ∧ e.kind = ErrKind.invalidWalletUrl) := by
  constructor
  · intro url h
    refine ⟨.invalidPrefixUrl, ?_, rfl⟩
    simp only [parseWalletUrl, stripWalletUrlStart_none h]
  · intro wt A B h1 h2 h3 h4 h5
    exact ⟨.invalidUrl, parseWalletUrl_query_fail isPk wt A B h1 h2 h3 h4 h5, rfl⟩

/-- Concrete instances of the amended claim C7: the derivation-path string
`m/44/501/0/0` fails with the `InvalidWalletUrl` kind, and so does the
well-prefixed URL `usb://ledger/2cTb?samwise-gamgee=0`, whose query is not a
`key=` assignment. -/
theorem parseWalletUrl_invalidWalletUrl_kinds_witness :
    (∃ e, parseWalletUrl (fun _ => true) ("m/44/501/0/0".data) = .error e
        ∧ e.kind = ErrKind.invalidWalletUrl)
    ∧ (∃ e, parseWalletUrl (fun _ => true)
          ("usb://".data ++ kindToken .ledger ++ ("2cTb".data ++ '?' :: "samwise-gamgee=0".data))
        = .error e ∧ e.kind = ErrKind.invalidWalletUrl) :=
  ⟨(parseWalletUrl_invalidWalletUrl_kinds (fun _ => true)).1 ("m/44/501/0/0".data) (by decide),
   (parseWalletUrl_invalidWalletUrl_kinds (fun _ => true)).2 .ledger ("2cTb".data)
     ("samwise-gamgee=0".data) (by decide) (by decide) (by decide) (by decide) (by decide)⟩

/-- Counterexamples to claim C7 as literally stated: the input
` usb://ledger` (leading space) does not begin with `usb://` yet parses
successfully after trimming, and the URL `usb://ledger/key=0?y`, whose query
part `y` is neither empty nor a `key=` assignment, also parses successfully
because the extraction regex backtracks and reads `key=0?y` as the key. -/
theorem parseWalletUrl_c7_counterexample :
    parseWalletUrl (fun _ => true) (" usb://ledger".data)
      = .ok ⟨.ledger, none, SOLANA_BIP44_BASE_PATH⟩
    ∧ parseWalletUrl (fun _ => true) ("usb://ledger/key=0?y".data)
      = .ok ⟨.ledger, none, SOLANA_BIP44_BASE_PATH ++ "/0?y".data⟩ :=
  ⟨rfl, rfl⟩

/-! ## Off-chain message codec

The implementations of `formatOffchainMessage`, `signOffchainMessage` and
`verifyOffchainMessage` are not under the available sources (only their tests,
src/unnamed/part_002, are); they are modelled from the spec below. -/

/-- UTF-8 encoding of one Unicode scalar value, by the standard byte-pattern
arithmetic. -/
def utf8EncodeChar (c : Char) : List Nat :=
  let n := c.toNat
  if n < 0x80 then [n]
  else if n < 0x800 then [0xC0 + n / 64, 0x80 + n % 64]
  else if n < 0x10000 then [0xE0 + n / 4096, 0x80 + n / 64 % 64, 0x80 + n % 64]
  else [0xF0 + n / 0x40000, 0x80 + n / 4096 % 64, 0x80 + n / 64 % 64, 0x80 + n % 64]

/-- UTF-8 byte sequence of a string. -/
def utf8Bytes (m : List Char) : List Nat :=
  m.flatMap utf8EncodeChar

/-- UTF-8 byte length of a string. -/
def utf8Len (m : List Char) : Nat :=
  (utf8Bytes m).length

theorem utf8EncodeChar_ne_nil (c : Char) : utf8EncodeChar c ≠ [] := by
  simp only [utf8EncodeChar]
  split_ifs <;> simp

/-- UTF-8 is a prefix-free code: equal byte streams decode the same leading
character. -/
theorem utf8EncodeChar_append_inj {c d : Char} {r s : List Nat}
    (h : utf8EncodeChar c ++ r = utf8EncodeChar d ++ s) : c = d ∧ r = s := by
  have hofc := Char.ofNat_toNat c
  have hofd := Char.ofNat_toNat d
  simp only [utf8EncodeChar] at h
  split_ifs at h <;>
    simp only [List.cons_append, List.nil_append, List.cons.injEq] at h <;>
    obtain ⟨hb, hrest⟩ := h
  all_goals try (exfalso; omega)
  · exact ⟨by rw [← hofc, ← hofd, hb], hrest⟩
  · obtain ⟨hb2, hr⟩ := hrest
    have hnm : c.toNat = d.toNat := by omega
    exact ⟨by rw [← hofc, ← hofd, hnm], hr⟩
  · obtain ⟨hb2, hb3, hr⟩ := hrest
    have hnm : c.toNat = d.toNat := by omega
    exact ⟨by rw [← hofc, ← hofd, hnm], hr⟩
  · obtain ⟨hb2, hb3, hb4, hr⟩ := hrest
    have hnm : c.toNat = d.toNat := by omega
    exact ⟨by rw [← hofc, ← hofd, hnm], hr⟩

theorem utf8Bytes_inj : ∀ {m m' : List Char}, utf8Bytes m = utf8Bytes m' → m = m' := by
  intro m
  induction m with
  | nil =>
    intro m' h
    cases m' with
    | nil => rfl
    | cons d t =>
      exfalso
      have h2 : utf8EncodeChar d ++ utf8Bytes t = [] := by
        rw [show utf8EncodeChar d ++ utf8Bytes t = utf8Bytes (d :: t) from rfl, ← h]
        rfl
      exact utf8EncodeChar_ne_nil d (List.append_eq_nil.mp h2).1
  | cons c t ih =>
    intro m' h
    cases m' with
    | nil =>
      exfalso
      have h2 : utf8EncodeChar c ++ utf8Bytes t = [] := h
      exact utf8EncodeChar_ne_nil c (List.append_eq_nil.mp h2).1
    | cons d t2 =>
      have h2 : utf8EncodeChar c ++ utf8Bytes t = utf8EncodeChar d ++ utf8Bytes t2 := h
      obtain ⟨hcd, hts⟩ := utf8EncodeChar_append_inj h2
      rw [hcd, ih hts]

/-- The fixed 16-byte signing-domain marker `\xffsolana offchain`. -/
def OFFCHAIN_MESSAGE_MARKER : List Nat :=
  255 :: ("solana offchain".data.map Char.toNat)

/-- Printable-ASCII test, range 0x20 to 0x7E inclusive. -/
def isPrintableAscii (c : Char) : Bool :=
  0x20 ≤ c.toNat && c.toNat ≤ 0x7E

/-- Modelled from the spec: the content-format selection of
`formatOffchainMessage` (section 4.4), first matching rule wins — 0
(`RESTRICTED_ASCII`) for printable-ASCII messages of UTF-8 length at most
1232, else 1 (`UTF8` up to 1232 bytes), else 2 (`UTF8` up to 65535 bytes). -/
def chooseContentFormat (message : List Char) : Nat :=
  if message.all isPrintableAscii = true ∧ utf8Len message ≤ 1232 then 0
  else if utf8Len message ≤ 1232 then 1
  else 2

/-- Two-byte little-endian length prefix. -/
def u16le (n : Nat) : List Nat :=
  [n % 256, n / 256 % 256]

/-- Modelled from the spec: `formatOffchainMessage(message, applicationDomain,
signerPublicKey)` (not under src/; spec section 4.4 and the byte-offset
assertions of the tests) — the concatenation of the 16-byte marker, the
1-byte version 0, the 32-byte application domain, the 1-byte content-format
tag, the length-prefixed message content and the signatory public key. -/
def formatOffchainMessage (message : List Char) (applicationDomain signer : List Nat) :
    List Nat :=
  OFFCHAIN_MESSAGE_MARKER ++ [0] ++ applicationDomain ++ [chooseContentFormat message]
    ++ u16le (utf8Len message) ++ utf8Bytes message ++ signer

/-- Modelled from the spec: `signOffchainMessage(message, keypair,
applicationDomain)` (section 4.5) builds the canonical buffer and signs it
with Ed25519; the Ed25519 primitive is external and abstracted as
`ed25519Sign`. -/
def signOffchainMessage {SK Sig : Type} (ed25519Sign : SK → List Nat → Sig)
    (sk : SK) (message : List Char) (kpPub applicationDomain : List Nat) : Sig :=
  ed25519Sign sk (formatOffchainMessage message applicationDomain kpPub)

/-- Modelled from the spec: `verifyOffchainMessage(message, signature,
publicKey, applicationDomain)` (section 4.5) rebuilds the canonical buffer
from the claimed inputs and checks the Ed25519 signature against it. -/
def verifyOffchainMessage {Sig : Type} (ed25519Verify : List Nat → List Nat → Sig → Bool)
    (message : List Char) (signature : Sig) (publicKey applicationDomain : List Nat) : Bool :=
  ed25519Verify publicKey (formatOffchainMessage message applicationDomain publicKey) signature

/-- Claim C5: exactly one content-format tag is chosen by the first matching
rule — 0 when the message is printable ASCII and at most 1232 UTF-8 bytes,
else 1 when at most 1232 bytes, else 2 — and it is stored at offset 49 of the
encoded buffer, after the 16-byte marker, the version byte 0 and the 32-byte
application domain. -/
theorem formatOffchainMessage_layout (message : List Char) (dom pk : List Nat)
    (hdom : dom.length = 32) :
    ((message.all isPrintableAscii = true ∧ utf8Len message ≤ 1232) →
      (formatOffchainMessage message dom pk)[49]? = some 0)
    ∧ ((¬(message.all isPrintableAscii = true ∧ utf8Len message ≤ 1232))
        → utf8Len message ≤ 1232 →
      (formatOffchainMessage message dom pk)[49]? = some 1)
    ∧ (1232 < utf8Len message → (formatOffchainMessage message dom pk)[49]? = some 2)
    ∧ (formatOffchainMessage message dom pk).take 16 = OFFCHAIN_MESSAGE_MARKER
    ∧ (formatOffchainMessage message dom pk)[16]? = some 0
    ∧ ((formatOffchainMessage message dom pk).drop 17).take 32 = dom := by
  have hbuf : formatOffchainMessage message dom pk
      = (OFFCHAIN_MESSAGE_MARKER ++ [0] ++ dom)
          ++ ([chooseContentFormat message]
              ++ (u16le (utf8Len message) ++ (utf8Bytes message ++ pk))) := by
    unfold formatOffchainMessage
    simp [List.append_assoc]
  have hplen : (OFFCHAIN_MESSAGE_MARKER ++ [0] ++ dom).length = 49 := by
    simp [OFFCHAIN_MESSAGE_MARKER, hdom]
  have htag : (formatOffchainMessage message dom pk)[49]? = some (chooseContentFormat message) := by
    rw [hbuf, List.getElem?_append_right (by rw [hplen])]
    rw [hplen]
    rfl
  refine ⟨?_, ?_, ?_, ?_, ?_, ?_⟩
  · intro hcond
    rw [htag]
    simp [chooseContentFormat, hcond]
  · intro hcond hle
    rw [htag]
    unfold chooseContentFormat
    rw [if_neg hcond, if_pos hle]
  · intro hgt
    rw [htag]
    have h1 : ¬(message.all isPrintableAscii = true ∧ utf8Len message ≤ 1232) := by
      rintro ⟨-, hle⟩
      omega
    have h2 : ¬(utf8Len message ≤ 1232) := by omega
    simp [chooseContentFormat, h1, h2]
  · have hbuf2 : formatOffchainMessage message dom pk
        = OFFCHAIN_MESSAGE_MARKER
            ++ ([0] ++ (dom ++ ([chooseContentFormat message]
               ++ (u16le (utf8Len message) ++ (utf8Bytes message ++ pk))))) := by
      unfold formatOffchainMessage
      simp [List.append_assoc]
    rw [hbuf2, show (16 : Nat) = OFFCHAIN_MESSAGE_MARKER.length from rfl, List.take_left]
  · have hbuf2 : formatOffchainMessage message dom pk
        = OFFCHAIN_MESSAGE_MARKER
            ++ ([0] ++ (dom ++ ([chooseContentFormat message]
               ++ (u16le (utf8Len message) ++ (utf8Bytes message ++ pk))))) := by
      unfold formatOffchainMessage
      simp [List.append_assoc]
    rw [hbuf2, List.getElem?_append_right
      (show OFFCHAIN_MESSAGE_MARKER.length ≤ 16 by rfl)]
    rw [show 16 - OFFCHAIN_MESSAGE_MARKER.length = 0 from rfl]
    simp
  · have hbuf2 : formatOffchainMessage message dom pk
        = (OFFCHAIN_MESSAGE_MARKER ++ [0])
            ++ (dom ++ ([chooseContentFormat message]
               ++ (u16le (utf8Len message) ++ (utf8Bytes message ++ pk)))) := by
      unfold formatOffchainMessage
      simp [List.append_assoc]
    rw [hbuf2, show (17 : Nat) = (OFFCHAIN_MESSAGE_MARKER ++ [0]).length from rfl,
      List.drop_left, ← hdom, List.take_left]

/-- Concrete instance of claim C5: the short printable-ASCII message `Hi`
with an all-zero 32-byte domain gets tag 0 at offset 49. -/
theorem formatOffchainMessage_layout_witness :
    (formatOffchainMessage ("Hi".data) (List.replicate 32 0) (List.replicate 32 1))[49]?
      = some 0 :=
  (formatOffchainMessage_layout ("Hi".data) (List.replicate 32 0) (List.replicate 32 1)
      (by decide)).1 ⟨by decide, by decide⟩

theorem formatOffchainMessage_inj_message {m m' : List Char} {dom pk : List Nat}
    (hl : utf8Len m ≤ 65535) (hl' : utf8Len m' ≤ 65535)
    (h : formatOffchainMessage m dom pk = formatOffchainMessage m' dom pk) : m = m' := by
  unfold formatOffchainMessage at h
  simp only [List.append_assoc] at h
  have h1 := List.append_cancel_left h
  have h2 := List.append_cancel_left h1
  have h3 := List.append_cancel_left h2
  simp only [u16le, List.cons_append, List.nil_append, List.cons.injEq] at h3
  obtain ⟨-, ha, hb, hcontent⟩ := h3
  have hlen : utf8Len m = utf8Len m' := by omega
  have hcl : (utf8Bytes m).length = (utf8Bytes m').length := hlen
  exact utf8Bytes_inj (List.append_inj hcontent hcl).1

theorem formatOffchainMessage_inj_domain {m : List Char} {dom dom' pk : List Nat}
    (hdom : dom.length = 32) (hdom' : dom'.length = 32)
    (h : formatOffchainMessage m dom pk = formatOffchainMessage m dom' pk) : dom = dom' := by
  unfold formatOffchainMessage at h
  simp only [List.append_assoc] at h
  have h1 := List.append_cancel_left h
  have h2 := List.append_cancel_left h1
  exact (List.append_inj h2 (by rw [hdom, hdom'])).1

/-- Claim C4: with Ed25519 idealized as an abstract scheme in which a
signature verifies exactly when the key matches and the signature is the
key's signature of the exact message (`Hideal`), and signing is injective in
the message (`Hinj`), a sign/verify round trip succeeds, and changing the
message, the signature, the public key or the application domain makes
verification return `false`. -/
theorem offchain_sign_verify {SK Sig : Type}
    (ed25519Sign : SK → List Nat → Sig)
    (ed25519Verify : List Nat → List Nat → Sig → Bool)
    (sk : SK) (pk : List Nat)
    (Hideal : ∀ (p msg : List Nat) (s : Sig),
        ed25519Verify p msg s = true ↔ (p = pk ∧ s = ed25519Sign sk msg))
    (Hinj : ∀ msg msg', ed25519Sign sk msg = ed25519Sign sk msg' → msg = msg')
    (m m' : List Char) (dom dom' pk' : List Nat) (sig' : Sig)
    (hdom : dom.length = 32) (hdom' : dom'.length = 32)
    (hm : utf8Len m ≤ 65535) (hm' : utf8Len m' ≤ 65535) :
    verifyOffchainMessage ed25519Verify m
        (signOffchainMessage ed25519Sign sk m pk dom) pk dom = true
    ∧ (m' ≠ m → verifyOffchainMessage ed25519Verify m'
        (signOffchainMessage ed25519Sign sk m pk dom) pk dom = false)
    ∧ (sig' ≠ signOffchainMessage ed25519Sign sk m pk dom →
        verifyOffchainMessage ed25519Verify m sig' pk dom = false)
    ∧ (pk' ≠ pk → verifyOffchainMessage ed25519Verify m
        (signOffchainMessage ed25519Sign sk m pk dom) pk' dom = false)
    ∧ (dom' ≠ dom → verifyOffchainMessage ed25519Verify m
        (signOffchainMessage ed25519Sign sk m pk dom) pk dom' = false) := by
  refine ⟨?_, ?_, ?_, ?_, ?_⟩
  · exact (Hideal _ _ _).mpr ⟨rfl, rfl⟩
  · intro hne
    cases hb : verifyOffchainMessage ed25519Verify m'
        (signOffchainMessage ed25519Sign sk m pk dom) pk dom
    · rfl
    · exfalso
      obtain ⟨-, hs⟩ := (Hideal _ _ _).mp hb
      exact hne (formatOffchainMessage_inj_message hm' hm (Hinj _ _ hs.symm))
  · intro hne
    cases hb : verifyOffchainMessage ed25519Verify m sig' pk dom
    · rfl
    · exact absurd ((Hideal _ _ _).mp hb).2 hne
  · intro hne
    cases hb : verifyOffchainMessage ed25519Verify m
        (signOffchainMessage ed25519Sign sk m pk dom) pk' dom
    · rfl
    · exact absurd ((Hideal _ _ _).mp hb).1 hne
  · intro hne
    cases hb : verifyOffchainMessage ed25519Verify m
        (signOffchainMessage ed25519Sign sk m pk dom) pk dom'
    · rfl
    · exfalso
      obtain ⟨-, hs⟩ := (Hideal _ _ _).mp hb
      exact hne (formatOffchainMessage_inj_domain hdom' hdom (Hinj _ _ hs.symm))

/-- Concrete instance of claim C4, with the idealized scheme instantiated by
signatures that are the message itself and verification that checks the key
and replays the message. -/
theorem offchain_sign_verify_witness :
    (verifyOffchainMessage
        (fun p msg s => decide (p = List.replicate 32 2) && decide (s = msg))
        ("ab".data)
        (signOffchainMessage (fun (_ : Unit) (msg : List Nat) => msg) ()
          ("ab".data) (List.replicate 32 2) (List.replicate 32 0))
        (List.replicate 32 2) (List.replicate 32 0) = true)
    ∧ ("cd".data ≠ ("ab".data : List Char) → verifyOffchainMessage
        (fun p msg s => decide (p = List.replicate 32 2) && decide (s = msg))
        ("cd".data)
        (signOffchainMessage (fun (_ : Unit) (msg : List Nat) => msg) ()
          ("ab".data) (List.replicate 32 2) (List.replicate 32 0))
        (List.replicate 32 2) (List.replicate 32 0) = false)
    ∧ (([9] : List Nat) ≠ signOffchainMessage (fun (_ : Unit) (msg : List Nat) => msg) ()
          ("ab".data) (List.replicate 32 2) (List.replicate 32 0) →
        verifyOffchainMessage
          (fun p msg s => decide (p = List.replicate 32 2) && decide (s = msg))
          ("ab".data) ([9] : List Nat)
          (List.replicate 32 2) (List.replicate 32 0) = false)
    ∧ (List.replicate 32 3 ≠ List.replicate 32 2 → verifyOffchainMessage
        (fun p msg s => decide (p = List.replicate 32 2) && decide (s = msg))
        ("ab".data)
        (signOffchainMessage (fun (_ : Unit) (msg : List Nat) => msg) ()
          ("ab".data) (List.replicate 32 2) (List.replicate 32 0))
        (List.replicate 32 3) (List.replicate 32 0) = false)
    ∧ (List.replicate 32 1 ≠ List.replicate 32 0 → verifyOffchainMessage
        (fun p msg s => decide (p = List.replicate 32 2) && decide (s = msg))
        ("ab".data)
        (signOffchainMessage (fun (_ : Unit) (msg : List Nat) => msg) ()
          ("ab".data) (List.replicate 32 2) (List.replicate 32 0))
        (List.replicate 32 2) (List.replicate 32 1) = false) :=
  offchain_sign_verify (fun (_ : Unit) (msg : List Nat) => msg)
    (fun p msg s => decide (p = List.replicate 32 2) && decide (s = msg))
    () (List.replicate 32 2)
    (fun p msg s => by simp [Bool.and_eq_true, decide_eq_true_iff])
    (fun _ _ h => h)
    ("ab".data) ("cd".data) (List.replicate 32 0) (List.replicate 32 1)
    (List.replicate 32 3) ([9] : List Nat)
    (by decide) (by decide) (by decide) (by decide)

end LedgerUtils
